import Mathlib

/-!
# Verification development for `pkg/semantic`

A shallow embedding of `src/pkg/semantic/semantic.go` (package `semantic`): commit-message
classification, tag resolution, next-version derivation and the construction of the
current tag.

Conventions of the embedding:

* a Go `string` is a list of characters (`Str`); every literal of the source is written as
  a Lean string literal followed by `.toList`;
* a Go call either returns or panics (`Go`); a Go `error` value is `Option Str`
  (`none` is the `nil` error);
* the git repository behind `Repository.git` is a record of what the go-git calls answer
  (`Git`);
* the functions of the imported library `github.com/Masterminds/semver` that the package
  calls (`NewVersion`, `String`, `LessThan`, `IncMajor`, `IncMinor`, `IncPatch`,
  `SetPrerelease`, `SetMetadata`) are embedded in the namespace `Semver`. The library is
  not part of the repository: the embedding follows the source of its release 1.5.0, the
  last one under the import path the package uses.
-/

namespace Semantic

/-! ## Strings -/

/-- A Go string. -/
abbrev Str := List Char

/-- Result of a Go call: a normal return, or a run-time panic, which aborts the program. -/
inductive Go (α : Type) where
  | ret (a : α)
  | panic (msg : String)
  deriving DecidableEq, Repr

/-- The class `\w` of Go regular expressions: `[0-9A-Za-z_]`. -/
def isWordChar (c : Char) : Bool := c.isAlphanum || c == '_'

/-- The class `.` of Go regular expressions (flag `s` unset): every character but the
newline. -/
def isDotChar (c : Char) : Bool := c != '\n'

/-- Go `strings.Contains s substr`: `substr` occurs in `s` at some position. -/
def stringsContains : Str → Str → Bool
  | [], substr => substr.isEmpty
  | c :: s, substr => substr.isPrefixOf (c :: s) || stringsContains s substr

/-! ## Data model (`semantic.go`, lines 21-61) -/

/-- The magnitude `type SemanticVersion uint8`, with its constants in `iota` order. -/
inductive SemanticVersion where
  | VersionInvalid
  | VersionNone
  | VersionPatch
  | VersionMinor
  | VersionMajor
  deriving DecidableEq, Repr

open SemanticVersion

/-- The `uint8` value of a magnitude constant. -/
def SemanticVersion.toNat : SemanticVersion → Nat
  | VersionInvalid => 0
  | VersionNone => 1
  | VersionPatch => 2
  | VersionMinor => 3
  | VersionMajor => 4

def initialVersion : Str := "0.0.0".toList
def treeIsDirtyFlag : Str := "dirty".toList
def breakingChangeText : Str := "BREAKING CHANGE:".toList

/-- The struct `Commit`; the field `Type` of the source is `Typ` here. -/
structure Commit where
  Version : SemanticVersion
  Hash : Str
  Typ : Str
  Scope : Str
  Message : Str
  deriving DecidableEq, Repr

/-- The zero value `Commit{}`. -/
def Commit.zero : Commit :=
  { Version := VersionInvalid, Hash := [], Typ := [], Scope := [], Message := [] }

/-- The struct `ReleaseInfo`. -/
structure ReleaseInfo where
  LatestVersion : Str
  CurrentTag : Str
  NextVersion : Str
  NextCommits : List Commit
  deriving DecidableEq, Repr

/-- The zero value `ReleaseInfo{}`. -/
def ReleaseInfo.zero : ReleaseInfo :=
  { LatestVersion := [], CurrentTag := [], NextVersion := [], NextCommits := [] }

/-- A tag reference as `getLatestVersion` sees it: `p.Name().Short()` and
`p.Hash().String()`. -/
structure Reference where
  short : Str
  hash : Str
  deriving DecidableEq, Repr

/-- A commit object as `commitsSince` sees it: `c.Hash.String()` and `c.Message`. -/
structure RawCommit where
  hash : Str
  message : Str
  deriving DecidableEq, Repr

/-- What the go-git repository answers to the calls the package makes.

* `tags`: `r.git.Tags()` fails, or the tag references in the order `ForEach` enumerates them;
* `head`: `r.git.Head()` fails, or the hash of HEAD;
* `log`: `r.git.Log` from HEAD in committer-time order fails, or the commits the iterator
  yields, newest first, followed by the error that ended the walk, if any;
* `statusIsClean`: `Worktree()` or `Status()` fails, or `status.IsClean()`. -/
structure Git where
  tags : Except Str (List Reference)
  head : Except Str Str
  log : Except Str (List RawCommit × Option Str)
  statusIsClean : Except Str Bool

/-- The struct `Repository`. -/
structure Repository where
  git : Git
  typeMajor : List Str
  typeMinor : List Str
  typePatch : List Str

/-- The value `New` builds around an opened repository: the classification tables are
fixed. -/
def newRepository (git : Git) : Repository :=
  { git := git
    typeMajor := ["break".toList]
    typeMinor := ["feat".toList]
    typePatch := ["fix".toList, "ref".toList, "perf".toList] }

/-- The constructor `New`; `opened` is the result of `openRepoRecursive repoPath`. -/
def New (opened : Except Str Git) : Except Str Repository :=
  match opened with
  | .error err => .error err
  | .ok git => .ok (newRepository git)

/-! ## Commit classification (`semantic.go`, lines 260-281, 299-321, 340-347) -/

/-- The submatches 1, 2, 3 of `^(\w+)\((\w+)\): (.+)` on `message`, if it matches.
`\w+` is followed by a character outside `\w`, so it matches the whole run of word
characters; `.+` is greedy and stops at the first newline or at the end. -/
def matchTypeScope (message : Str) : Option (Str × Str × Str) :=
  let typ := message.takeWhile isWordChar
  match message.dropWhile isWordChar with
  | '(' :: afterParen =>
    let scope := afterParen.takeWhile isWordChar
    match afterParen.dropWhile isWordChar with
    | ')' :: ':' :: ' ' :: rest =>
      let text := rest.takeWhile isDotChar
      if typ.isEmpty || scope.isEmpty || text.isEmpty then none else some (typ, scope, text)
    | _ => none
  | _ => none

/-- The submatches 1, 2 of `^(\w+): (.+)` on `message`, if it matches. -/
def matchType (message : Str) : Option (Str × Str) :=
  let typ := message.takeWhile isWordChar
  match message.dropWhile isWordChar with
  | ':' :: ' ' :: rest =>
    let text := rest.takeWhile isDotChar
    if typ.isEmpty || text.isEmpty then none else some (typ, text)
  | _ => none

/-- The function `tokenizeCommitMessage`: returns type, scope, message. -/
def tokenizeCommitMessage (message : Str) : Str × Str × Str :=
  match matchTypeScope message with
  | some (typ, scope, text) =>
    (typ, if scope = "*".toList then [] else scope, text)
  | none =>
    match matchType message with
    | some (typ, text) => (typ, [], text)
    | none => ([], [], message)

/-- The function `inStringSlice`. -/
def inStringSlice (item : Str) : List Str → Bool
  | [] => false
  | check :: arr => if check = item then true else inStringSlice item arr

/-- The magnitude chosen by the `switch` of `parseCommitMessage`. -/
def classify (r : Repository) (cType cMessage : Str) : SemanticVersion :=
  if stringsContains cMessage breakingChangeText then VersionMajor
  else if inStringSlice cType r.typeMajor then VersionMajor
  else if inStringSlice cType r.typeMinor then VersionMinor
  else if inStringSlice cType r.typePatch then VersionPatch
  else VersionNone

/-- The method `parseCommitMessage`; the second component is its `error` result. -/
def parseCommitMessage (r : Repository) (text : Str) : Commit × Option Str :=
  let (cType, cScope, cMessage) := tokenizeCommitMessage text
  ({ Commit.zero with
      Typ := cType, Scope := cScope, Message := cMessage,
      Version := classify r cType cMessage }, none)

/-! ## The imported library `github.com/Masterminds/semver` -/

namespace Semver

/-- The struct `Version` of the library. Its field `original` is read by none of the
functions the package calls and is left out. -/
structure Version where
  major : Int
  minor : Int
  patch : Int
  pre : Str
  metadata : Str
  deriving DecidableEq, Repr

/-- The class `[0-9A-Za-z\-]`. -/
def isIdentChar (c : Char) : Bool := c.isAlphanum || c == '-'

/-- Go `strings.Split s "."`. -/
def splitDots : Str → List Str
  | [] => [[]]
  | c :: s =>
    if c = '.' then [] :: splitDots s
    else
      match splitDots s with
      | [] => [[c]]
      | part :: parts => (c :: part) :: parts

/-- The whole of `s` matches `[0-9A-Za-z\-]+(\.[0-9A-Za-z\-]+)*`, the regular expression
`ValidPrerelease` and the body of the pre-release and metadata groups of `SemVerRegex`. -/
def validIdentifiers (s : Str) : Bool :=
  (splitDots s).all (fun part => !part.isEmpty && part.all isIdentChar)

/-- The number a string of decimal digits denotes. -/
def digitsValue (s : Str) : Nat :=
  s.foldl (fun n c => 10 * n + (c.toNat - 48)) 0

/-- Go `strconv.ParseInt s 10 64` on a string of decimal digits, the only strings
`NewVersion` passes: `none` is the range error. -/
def parseInt64 (s : Str) : Option Int :=
  if s.isEmpty || !s.all Char.isDigit then none
  else if digitsValue s < 2 ^ 63 then some (digitsValue s) else none

/-- Go `strconv.ParseUint s 10 64`: `none` is a syntax or range error. -/
def parseUint64 (s : Str) : Option Nat :=
  if s.isEmpty || !s.all Char.isDigit then none
  else if digitsValue s < 2 ^ 64 then some (digitsValue s) else none

/-- One group `(\.[0-9]+)?`: the digits it captured, if it took part in the match, and
the rest of the input. -/
def optSegment (s : Str) : Option Str × Str :=
  match s with
  | '.' :: t =>
    if (t.takeWhile Char.isDigit).isEmpty then (none, s)
    else (some (t.takeWhile Char.isDigit), t.dropWhile Char.isDigit)
  | _ => (none, s)

/-- The group `(-([0-9A-Za-z\-]+(\.[0-9A-Za-z\-]+)*))?` when the rest of the pattern is
the metadata group and `$`: the pre-release captured (empty when the group took no part)
and the rest of the input. -/
def matchPre (s : Str) : Option (Str × Str) :=
  match s with
  | '-' :: t =>
    let pre := t.takeWhile (fun c => c != '+')
    if validIdentifiers pre then some (pre, t.dropWhile (fun c => c != '+')) else none
  | _ => some ([], s)

/-- The group `(\+([0-9A-Za-z\-]+(\.[0-9A-Za-z\-]+)*))?` followed by `$`. -/
def matchMetadata (s : Str) : Option Str :=
  match s with
  | [] => some []
  | '+' :: t => if validIdentifiers t then some t else none
  | _ => none

/-- The leading `v?`: the input without the letter `v` it may start with. -/
def optLetterV (v : Str) : Str :=
  match v with
  | 'v' :: t => t
  | _ => v

/-- The submatches of `versionRegex`, that is `^` ++ `SemVerRegex` ++ `$` with
`SemVerRegex = v?([0-9]+)(\.[0-9]+)?(\.[0-9]+)?(-(...))?(\+(...))?`: the digits of major,
of minor and of patch (when present), the pre-release and the metadata. -/
def versionRegex (v : Str) : Option (Str × Option Str × Option Str × Str × Str) :=
  let s0 := optLetterV v
  let major := s0.takeWhile Char.isDigit
  if major.isEmpty then none
  else
    let (minor, s2) := optSegment (s0.dropWhile Char.isDigit)
    let (patch, s3) := optSegment s2
    match matchPre s3 with
    | none => none
    | some (pre, s4) =>
      match matchMetadata s4 with
      | none => none
      | some metadata => some (major, minor, patch, pre, metadata)

/-- The parse of an optional segment: 0 when the group took no part in the match. -/
def parseSegment : Option Str → Option Int
  | none => some 0
  | some digits => parseInt64 digits

/-- The function `NewVersion`: `none` stands for the result `nil, err`. -/
def NewVersion (v : Str) : Option Version :=
  match versionRegex v with
  | none => none
  | some (major, minor, patch, pre, metadata) =>
    match parseInt64 major, parseSegment minor, parseSegment patch with
    | some ma, some mi, some pa =>
      some { major := ma, minor := mi, patch := pa, pre := pre, metadata := metadata }
    | _, _, _ => none

/-- The decimal digits of `n`, most significant first, in front of `acc`. -/
def formatNatAux : Nat → Nat → Str → Str
  | 0, _, acc => acc
  | fuel + 1, n, acc =>
    let acc1 := Char.ofNat (48 + n % 10) :: acc
    if n / 10 = 0 then acc1 else formatNatAux fuel (n / 10) acc1

/-- The verb `%d` on a natural number. -/
def formatNat (n : Nat) : Str := formatNatAux (n + 1) n []

/-- The verb `%d` of `fmt` on an `int64`. -/
def formatInt : Int → Str
  | Int.ofNat n => formatNat n
  | Int.negSucc n => '-' :: formatNat (n + 1)

/-- The method `String`. -/
def Version.String (v : Version) : Str :=
  formatInt v.major ++ '.' :: formatInt v.minor ++ '.' :: formatInt v.patch
    ++ (if v.pre ≠ [] then '-' :: v.pre else [])
    ++ (if v.metadata ≠ [] then '+' :: v.metadata else [])

/-- Addition of `int64`: the result wraps around. -/
def wrapInt64 (i : Int) : Int := (i + 2 ^ 63) % 2 ^ 64 - 2 ^ 63

/-- The method `IncPatch`: on a version with a pre-release it drops the labels and keeps
the patch number. -/
def Version.IncPatch (v : Version) : Version :=
  if v.pre ≠ [] then { v with metadata := [], pre := [] }
  else { v with metadata := [], pre := [], patch := wrapInt64 (v.patch + 1) }

/-- The method `IncMinor`. -/
def Version.IncMinor (v : Version) : Version :=
  { v with metadata := [], pre := [], patch := 0, minor := wrapInt64 (v.minor + 1) }

/-- The method `IncMajor`. -/
def Version.IncMajor (v : Version) : Version :=
  { v with metadata := [], pre := [], patch := 0, minor := 0, major := wrapInt64 (v.major + 1) }

/-- The method `SetPrerelease`, with its `error` result. -/
def Version.SetPrerelease (v : Version) (pre : Str) : Version × Option Str :=
  if 0 < pre.length && !validIdentifiers pre then (v, some "Invalid Prerelease string".toList)
  else ({ v with pre := pre }, none)

/-- The method `SetMetadata`, with its `error` result. -/
def Version.SetMetadata (v : Version) (metadata : Str) : Version × Option Str :=
  if 0 < metadata.length && !validIdentifiers metadata then
    (v, some "Invalid Metadata string".toList)
  else ({ v with metadata := metadata }, none)

/-- What `NewVersion` guarantees of the versions it returns: the numbers are in the range
of a non-negative `int64`, and a label that is not empty matches `ValidPrerelease`. -/
def Version.WellFormed (v : Version) : Prop :=
  (0 ≤ v.major ∧ v.major < 2 ^ 63) ∧ (0 ≤ v.minor ∧ v.minor < 2 ^ 63) ∧
  (0 ≤ v.patch ∧ v.patch < 2 ^ 63) ∧
  (v.pre = [] ∨ validIdentifiers v.pre = true) ∧
  (v.metadata = [] ∨ validIdentifiers v.metadata = true)

/-- The function `compareSegment`. -/
def compareSegment (v o : Int) : Int :=
  if v < o then -1 else if v > o then 1 else 0

/-- Go `s > o` on strings: the lexicographic order. -/
def strGt : Str → Str → Bool
  | [], _ => false
  | _ :: _, [] => true
  | a :: s, b :: o => if a = b then strGt s o else decide (b.toNat < a.toNat)

/-- The function `comparePrePart`. -/
def comparePrePart (s o : Str) : Int :=
  if s = o then 0
  else if s = [] then (if o ≠ [] then -1 else 1)
  else if o = [] then (if s ≠ [] then 1 else -1)
  else
    match parseUint64 o, parseUint64 s with
    | none, none => if strGt s o then 1 else -1
    | none, some _ => -1
    | some _, none => 1
    | some oi, some si => if si > oi then 1 else -1

/-- The loop of `comparePrerelease` from index `i = max slen olen - fuel` on: a part
that is missing reads as the empty string. -/
def comparePreParts : Nat → List Str → List Str → Int
  | 0, _, _ => 0
  | fuel + 1, sparts, oparts =>
    let d := comparePrePart (sparts.headD []) (oparts.headD [])
    if d ≠ 0 then d else comparePreParts fuel sparts.tail oparts.tail

/-- The function `comparePrerelease`. -/
def comparePrerelease (v o : Str) : Int :=
  let sparts := splitDots v
  let oparts := splitDots o
  comparePreParts (max sparts.length oparts.length) sparts oparts

/-- The method `Compare`. -/
def Version.Compare (v o : Version) : Int :=
  if compareSegment v.major o.major ≠ 0 then compareSegment v.major o.major
  else if compareSegment v.minor o.minor ≠ 0 then compareSegment v.minor o.minor
  else if compareSegment v.patch o.patch ≠ 0 then compareSegment v.patch o.patch
  else if v.pre = [] ∧ o.pre = [] then 0
  else if v.pre = [] then 1
  else if o.pre = [] then -1
  else comparePrerelease v.pre o.pre

/-- The method `LessThan`. -/
def Version.LessThan (v o : Version) : Bool := decide (v.Compare o < 0)

end Semver

open Semver

/-! ## Tag resolution (`semantic.go`, lines 158-180) -/

/-- The call `current.LessThan(version)` on two pointers: `LessThan` reads the fields of
both, which panics on a `nil` pointer. -/
def derefLessThan (current version : Option Version) : Go Bool :=
  match current, version with
  | some c, some v => .ret (c.LessThan v)
  | _, _ => .panic "invalid memory address or nil pointer dereference"

/-- The loop `tags.ForEach` of `getLatestVersion` over the tags still to enumerate, from
the values `current` and `hash` reached so far. -/
def forEachTag : List Reference → Option Version → Str → Go (Option Version × Str)
  | [], current, hash => .ret (current, hash)
  | p :: rest, current, hash =>
    let tag := p.short
    let version := NewVersion tag
    match derefLessThan current version with
    | .panic msg => .panic msg
    | .ret true => forEachTag rest version p.hash
    | .ret false => forEachTag rest current hash

/-- The method `getLatestVersion`: returns the version, the commit hash and the error. -/
def getLatestVersion (r : Repository) : Go (Str × Str × Option Str) :=
  let current := NewVersion initialVersion
  match r.git.tags with
  | .error err => .ret ([], [], some err)
  | .ok tags =>
    match forEachTag tags current [] with
    | .panic msg => .panic msg
    | .ret (none, _) => .panic "invalid memory address or nil pointer dereference"
    | .ret (some current, hash) => .ret (current.String, hash, none)

/-! ## Working tree, history and next version (`semantic.go`, lines 182-258) -/

/-- The text `fmt.Errorf("%s - is repository empty?", err.Error())`. -/
def emptyRepositoryError (err : Str) : Str := err ++ " - is repository empty?".toList

/-- The method `getTreeStatus`: returns the hash of HEAD, the dirty flag and the error. -/
def getTreeStatus (r : Repository) : Str × Bool × Option Str :=
  match r.git.head with
  | .error err => ([], false, some (emptyRepositoryError err))
  | .ok hash =>
    match r.git.statusIsClean with
    | .error err => (hash, false, some err)
    | .ok isClean => (hash, !isClean, none)

/-- The loop `iterator.ForEach` of `commitsSince`: the commits appended from the commits
still to walk, and the error `ForEach` returns. `ErrStop` ends the walk without error. -/
def forEachCommit (r : Repository) (hash : Str) : List RawCommit → Option Str →
    List Commit × Option Str
  | [], walkErr => ([], walkErr)
  | c :: rest, walkErr =>
    if c.hash = hash then ([], none)
    else
      let (commit, err) := parseCommitMessage r c.message
      let commit := { commit with Hash := c.hash }
      match err with
      | some e => ([commit], some e)
      | none =>
        let (commits, err1) := forEachCommit r hash rest walkErr
        (commit :: commits, err1)

/-- The method `commitsSince`. -/
def commitsSince (r : Repository) (hash : Str) : List Commit × Option Str :=
  match r.git.head with
  | .error err => ([], some (emptyRepositoryError err))
  | .ok _ =>
    match r.git.log with
    | .error err => ([], some err)
    | .ok (walk, walkErr) => forEachCommit r hash walk walkErr

/-- The body of the loop of `getNextVersion` over the commits. -/
def bumpStep (bump : SemanticVersion) (commit : Commit) : SemanticVersion :=
  if commit.Version.toNat > bump.toNat then commit.Version else bump

/-- The loop of `getNextVersion` over the commits, from the zero value `VersionInvalid`
of `bump`. -/
def maxBump (commits : List Commit) : SemanticVersion :=
  commits.foldl bumpStep VersionInvalid

/-- The `switch bump` of `getNextVersion`: the next version, when there is one. -/
def applyBump (v : Version) : SemanticVersion → Option Version
  | VersionMajor => some v.IncMajor
  | VersionMinor => some v.IncMinor
  | VersionPatch => some v.IncPatch
  | _ => none

/-- The string `getNextVersion` returns for a bump: empty in the `default` case. -/
def bumpString (v : Version) (bump : SemanticVersion) : Str :=
  match applyBump v bump with
  | none => []
  | some vNext => vNext.String

/-- The method `getNextVersion`: returns the next version, the commits and the error. -/
def getNextVersion (r : Repository) (prev prevHash : Str) : Str × List Commit × Option Str :=
  match NewVersion prev with
  | none => ([], [], some "Invalid Semantic Version".toList)
  | some v =>
    match commitsSince r prevHash with
    | (commits, some err) => ([], commits, some err)
    | (commits, none) => (bumpString v (maxBump commits), commits, none)

/-! ## Current tag and `Info` (`semantic.go`, lines 79-110, 323-338) -/

/-- The function `shortHash`: the slice `hash[:7]` panics on a shorter string. -/
def shortHash (hash : Str) : Go Str :=
  if hash.length < 7 then .panic "slice bounds out of range" else .ret (hash.take 7)

/-- The function `createTag`: a `nil` version, from a `version` that does not parse, is
dereferenced by `SetPrerelease`, `SetMetadata` or `String`. -/
def createTag (version commit : Str) (isDirty : Bool) : Go Str :=
  match NewVersion version with
  | none => .panic "invalid memory address or nil pointer dereference"
  | some v =>
    let withPre : Go Version :=
      if commit ≠ [] then
        match shortHash commit with
        | .panic msg => .panic msg
        | .ret short => .ret (v.SetPrerelease short).1
      else .ret v
    match withPre with
    | .panic msg => .panic msg
    | .ret v1 =>
      let v2 := if isDirty then (v1.SetMetadata treeIsDirtyFlag).1 else v1
      .ret v2.String

/-- The method `Info`: returns the release information and the error. -/
def Info (r : Repository) : Go (ReleaseInfo × Option Str) :=
  let i := ReleaseInfo.zero
  match getLatestVersion r with
  | .panic msg => .panic msg
  | .ret (_, _, some err) => .ret (i, some err)
  | .ret (lastVersion, lastVersionCommit, none) =>
    let i := { i with LatestVersion := lastVersion }
    match getNextVersion r lastVersion lastVersionCommit with
    | (_, _, some err) => .ret (i, some err)
    | (nextVersion, commits, none) =>
      let i := { i with NextVersion := nextVersion, NextCommits := commits }
      match getTreeStatus r with
      | (_, _, some err) => .ret (i, some err)
      | (headCommit, isDirty, none) =>
        let hash := if lastVersionCommit ≠ headCommit then headCommit else []
        match createTag lastVersion hash isDirty with
        | .panic msg => .panic msg
        | .ret tag => .ret ({ i with CurrentTag := tag }, none)

/-! ## Notation of the statements and sample repositories -/

/-- The text `major.minor.patch` that `%d.%d.%d` prints. -/
def tripleString (major minor patch : Int) : Str :=
  formatInt major ++ '.' :: formatInt minor ++ '.' :: formatInt patch

/-- A repository without tags, with the two commits of the first scenario of the
specification. -/
def sampleGit : Git :=
  { tags := .ok []
    head := .ok "1111111111111111111111111111111111111111".toList
    log := .ok ([⟨"1111111111111111111111111111111111111111".toList, "feat: add x".toList⟩,
                 ⟨"2222222222222222222222222222222222222222".toList, "fix: correct y".toList⟩],
                none)
    statusIsClean := .ok true }

/-- A repository whose only tag is the pre-release `1.2.3-rc1`, followed by one `fix`
commit. -/
def fixOnlyGit : Git :=
  { tags := .ok [⟨"1.2.3-rc1".toList, "3333333333333333333333333333333333333333".toList⟩]
    head := .ok "1111111111111111111111111111111111111111".toList
    log := .ok ([⟨"1111111111111111111111111111111111111111".toList, "fix: a".toList⟩,
                 ⟨"3333333333333333333333333333333333333333".toList, "chore: c".toList⟩],
                none)
    statusIsClean := .ok true }

/-- A repository without tags, with the three commits of the second scenario of the
specification. -/
def threeCommitsGit : Git :=
  { tags := .ok []
    head := .ok "1111111111111111111111111111111111111111".toList
    log := .ok ([⟨"1111111111111111111111111111111111111111".toList, "fix: a".toList⟩,
                 ⟨"2222222222222222222222222222222222222222".toList, "fix: b".toList⟩,
                 ⟨"3333333333333333333333333333333333333333".toList, "chore: c".toList⟩],
                none)
    statusIsClean := .ok true }

/-- The classification of the commits of `sampleGit`. -/
def sampleCommits : List Commit :=
  [⟨VersionMinor, "1111111111111111111111111111111111111111".toList, "feat".toList, [],
      "add x".toList⟩,
    ⟨VersionPatch, "2222222222222222222222222222222222222222".toList, "fix".toList, [],
      "correct y".toList⟩]

/-- The classification of the commit of `fixOnlyGit` that follows the tag. -/
def fixOnlyCommits : List Commit :=
  [⟨VersionPatch, "1111111111111111111111111111111111111111".toList, "fix".toList, [],
    "a".toList⟩]

/-- The tag `p` parses to a version that is strictly below the version of `q`. -/
def tagLess (p q : Reference) : Bool :=
  match NewVersion p.short, NewVersion q.short with
  | some v, some o => v.LessThan o
  | _, _ => false

/-- No tag of `tags` is strictly above the tag `p`. -/
def maximalTag (tags : List Reference) (p : Reference) : Bool :=
  tags.all (fun m => !tagLess p m)

/-- The tag `p` parses to a version that is strictly above the initial version. -/
def aboveInitial (p : Reference) : Bool :=
  match NewVersion initialVersion, NewVersion p.short with
  | some v, some o => v.LessThan o
  | _, _ => false

/-- A pre-release identifier is written canonically: it is not empty and, when it is
numeric, it has no leading zeros. -/
def canonicalPart (part : Str) : Bool :=
  !part.isEmpty &&
    match parseUint64 part with
    | some n => part == formatNat n
    | none => true

/-- The pre-release label of a version, when there is one, is made of canonical
identifiers, as semantic versioning requires. -/
def canonicalVersion (v : Version) : Bool :=
  v.pre.isEmpty || (splitDots v.pre).all canonicalPart

/-- The name of the tag `p` parses to a version with a canonical pre-release label. -/
def canonicalTag (p : Reference) : Bool :=
  match NewVersion p.short with
  | some v => canonicalVersion v
  | none => false

/-- The precedence key of one pre-release identifier: its number when it is numeric, its
characters otherwise; numbers come before texts. -/
def partKey (part : Str) : ℕ ⊕ₗ List ℕ :=
  match parseUint64 part with
  | some n => toLex (Sum.inl n)
  | none => toLex (Sum.inr (part.map Char.toNat))

/-- The precedence key of a version: major, minor, patch, then the pre-release label,
identifier by identifier, where the absence of a label comes last. -/
def versionKey (v : Version) : ℤ ×ₗ ℤ ×ₗ ℤ ×ₗ WithTop (List (ℕ ⊕ₗ List ℕ)) :=
  toLex (v.major, toLex (v.minor, toLex (v.patch,
    if v.pre = [] then ⊤ else ((splitDots v.pre).map partKey : WithTop (List (ℕ ⊕ₗ List ℕ))))))

/-- A repository with the given tags and the history of `sampleGit`. -/
def taggedGit (tags : List Reference) : Git := { sampleGit with tags := .ok tags }

/-- A commit hash as go-git prints it: 40 hexadecimal digits in lower case. -/
def isHash (hash : Str) : Bool :=
  hash.length == 40 && hash.all (fun c => "0123456789abcdef".toList.contains c)

/-- The tag `0.0.0`, on the newer commit of `sampleGit`, which is its HEAD. -/
def tag000 : Reference :=
  ⟨"0.0.0".toList, "1111111111111111111111111111111111111111".toList⟩

/-- The tag `v1.0.0`, on the older commit of `sampleGit`. -/
def tagV100 : Reference :=
  ⟨"v1.0.0".toList, "2222222222222222222222222222222222222222".toList⟩

/-- The tag `1.0.0`, on the newer commit of `sampleGit`. -/
def tag100 : Reference :=
  ⟨"1.0.0".toList, "1111111111111111111111111111111111111111".toList⟩

/-- The tag `2.1.0`, on the newer commit of `sampleGit`. -/
def tag210 : Reference :=
  ⟨"2.1.0".toList, "1111111111111111111111111111111111111111".toList⟩

/-- The tag `2.1.0-rc.1`, on the older commit of `sampleGit`. -/
def tag210rc : Reference :=
  ⟨"2.1.0-rc.1".toList, "2222222222222222222222222222222222222222".toList⟩

/-- The tags `v1.0.0` and `1.0.0`, of the same precedence, enumerated in this order, with
HEAD of `sampleGit` on the second one. -/
def tiedTagsGit : Git := taggedGit [tagV100, tag100]

/-- The tag `latest`, whose name is no version. -/
def tagLatest : Reference :=
  ⟨"latest".toList, "1111111111111111111111111111111111111111".toList⟩

/-- The tag `nightly`, whose name is no version. -/
def tagNightly : Reference :=
  ⟨"nightly".toList, "2222222222222222222222222222222222222222".toList⟩

/-- The text of a version: the triple, then the labels that are not empty. -/
def labelled (triple pre metadata : Str) : Str :=
  triple ++ (if pre ≠ [] then '-' :: pre else []) ++
    (if metadata ≠ [] then '+' :: metadata else [])

/-- The repository `taggedGit tags` with uncommitted changes in the working tree. -/
def dirtyGit (tags : List Reference) : Git :=
  { taggedGit tags with statusIsClean := .ok false }

/-- The first line of a message: the text up to the first newline. -/
def firstLine (message : Str) : Str := message.takeWhile isDotChar

/-- The text `type(scope): rest`. -/
def headerWithScope (typ scope rest : Str) : Str :=
  typ ++ '(' :: (scope ++ ')' :: ':' :: ' ' :: rest)

/-- The text `type: rest`. -/
def headerNoScope (typ rest : Str) : Str := typ ++ ':' :: ' ' :: rest

/-- A non-empty run of word characters, what `\w+` matches. -/
def isWord (s : Str) : Bool := !s.isEmpty && s.all isWordChar

/-- The commit that the loop of `commitsSince` appends for the commit object `c`: the
result of `parseCommitMessage` on its message, with its hash. -/
def classifiedCommit (r : Repository) (c : RawCommit) : Commit :=
  { (parseCommitMessage r c.message).1 with Hash := c.hash }

/-- A repository without tags in which HEAD cannot be resolved. -/
def noHeadGit : Git :=
  { tags := .ok []
    head := .error "reference not found".toList
    log := .error "reference not found".toList
    statusIsClean := .ok true }

/-- The repository `sampleGit` without a working tree: the status is not available. -/
def bareGit : Git :=
  { sampleGit with statusIsClean := .error "worktree not available in a bare repository".toList }

/-- A numeric identifier of the standard grammar of semantic versioning 2.0.0, to which
the specification refers: `0`, or digits that start with a positive digit. -/
def numericIdentifier (s : Str) : Bool :=
  !s.isEmpty && s.all Char.isDigit && (s == ['0'] || s.head? != some '0')

/-- A pre-release identifier of the standard grammar: a numeric identifier, or letters,
digits and hyphens with at least one character that is not a digit. -/
def prereleaseIdentifier (s : Str) : Bool :=
  !s.isEmpty && s.all isIdentChar && (!s.all Char.isDigit || numericIdentifier s)

/-- A build identifier of the standard grammar: letters, digits and hyphens. -/
def buildIdentifier (s : Str) : Bool := !s.isEmpty && s.all isIdentChar

/-- The text `s` is a semantic version of the standard grammar
`major.minor.patch[-prerelease][+metadata]`: three numeric identifiers, then the
pre-release identifiers after the first `-`, then the build identifiers after the first
`+`. -/
def standardSemver (s : Str) : Bool :=
  let front := s.takeWhile (fun c => c != '+')
  let build := s.dropWhile (fun c => c != '+')
  let core := front.takeWhile (fun c => c != '-')
  let pre := front.dropWhile (fun c => c != '-')
  (match splitDots core with
    | [major, minor, patch] =>
      numericIdentifier major && numericIdentifier minor && numericIdentifier patch
    | _ => false) &&
  (match pre with
    | [] => true
    | _ :: identifiers => (splitDots identifiers).all prereleaseIdentifier) &&
  (match build with
    | [] => true
    | _ :: identifiers => (splitDots identifiers).all buildIdentifier)

/-- A commit hash whose first 7 characters are decimal digits with a leading zero. -/
def leadingZeroHash : Str := "0123456789abcdef0123456789abcdef01234567".toList

/-- The tag `v0.0.0`, on the older commit of `sampleGit`. -/
def tagV000 : Reference :=
  ⟨"v0.0.0".toList, "2222222222222222222222222222222222222222".toList⟩

/-- The tag `0.0.0-rc1`, on the older commit of `sampleGit`. -/
def tag000rc1 : Reference :=
  ⟨"0.0.0-rc1".toList, "2222222222222222222222222222222222222222".toList⟩

/-! # Theorems -/

/-! ## Magnitudes and the loop over the commits -/

theorem toNat_injective {a b : SemanticVersion} (h : a.toNat = b.toNat) : a = b := by
  cases a <;> cases b <;> simp [SemanticVersion.toNat] at h ⊢

theorem foldl_bumpStep_ge (commits : List Commit) :
    ∀ init : SemanticVersion,
      init.toNat ≤ (commits.foldl bumpStep init).toNat ∧
      ∀ c ∈ commits, c.Version.toNat ≤ (commits.foldl bumpStep init).toNat := by
  induction commits with
  | nil => intro init; simp
  | cons c cs ih =>
    intro init
    obtain ⟨h1, h2⟩ := ih (bumpStep init c)
    have hstep : init.toNat ≤ (bumpStep init c).toNat ∧
        c.Version.toNat ≤ (bumpStep init c).toNat := by
      unfold bumpStep; split <;> omega
    refine ⟨?_, ?_⟩
    · simpa using le_trans hstep.1 h1
    · intro x hx
      rcases List.mem_cons.1 hx with rfl | hx
      · simpa using le_trans hstep.2 h1
      · simpa using h2 x hx

theorem foldl_bumpStep_mem (commits : List Commit) :
    ∀ init : SemanticVersion,
      commits.foldl bumpStep init = init ∨
      ∃ c ∈ commits, c.Version = commits.foldl bumpStep init := by
  induction commits with
  | nil => intro init; simp
  | cons c cs ih =>
    intro init
    rcases ih (bumpStep init c) with h | ⟨x, hx, hxe⟩
    · by_cases hc : c.Version.toNat > init.toNat
      · have hs : bumpStep init c = c.Version := by simp [bumpStep, hc]
        right; exact ⟨c, List.mem_cons_self _ _, by rw [List.foldl_cons, h, hs]⟩
      · have hs : bumpStep init c = init := by simp [bumpStep, hc]
        left; rw [List.foldl_cons, h, hs]
    · right; exact ⟨x, List.mem_cons_of_mem _ hx, by simpa using hxe⟩

theorem maxBump_ge (commits : List Commit) :
    ∀ c ∈ commits, c.Version.toNat ≤ (maxBump commits).toNat :=
  (foldl_bumpStep_ge commits VersionInvalid).2

theorem maxBump_mem (commits : List Commit) (h : commits ≠ []) :
    ∃ c ∈ commits, c.Version = maxBump commits := by
  rcases foldl_bumpStep_mem commits VersionInvalid with h0 | h1
  · obtain ⟨c, cs, rfl⟩ := List.exists_cons_of_ne_nil h
    refine ⟨c, List.mem_cons_self _ _, toNat_injective ?_⟩
    have := maxBump_ge (c :: cs) c (List.mem_cons_self _ _)
    unfold maxBump at this ⊢
    rw [h0] at this ⊢
    simp [SemanticVersion.toNat] at this ⊢
    exact this
  · exact h1

theorem maxBump_le_of_subset {l1 l2 : List Commit} (h : ∀ c ∈ l1, c ∈ l2) :
    (maxBump l1).toNat ≤ (maxBump l2).toNat := by
  rcases foldl_bumpStep_mem l1 VersionInvalid with h0 | ⟨c, hc, hce⟩
  · unfold maxBump; rw [h0]; simp [SemanticVersion.toNat]
  · have := maxBump_ge l2 c (h c hc)
    unfold maxBump at this ⊢
    rw [← hce]; exact this

theorem maxBump_perm {l1 l2 : List Commit} (h : l1.Perm l2) : maxBump l1 = maxBump l2 :=
  toNat_injective (le_antisymm (maxBump_le_of_subset fun _ hc => h.subset hc)
    (maxBump_le_of_subset fun _ hc => h.symm.subset hc))

theorem maxBump_major {commits : List Commit} (h : ∃ c ∈ commits, c.Version = VersionMajor) :
    maxBump commits = VersionMajor := by
  obtain ⟨c, hc, hce⟩ := h
  have := maxBump_ge commits c hc
  rw [hce] at this
  generalize maxBump commits = b at this
  cases b <;> simp [SemanticVersion.toNat] at this ⊢

theorem getNextVersion_eq (r : Repository) (prev prevHash : Str) (v : Version)
    (commits : List Commit) (hv : NewVersion prev = some v)
    (hc : commitsSince r prevHash = (commits, none)) :
    getNextVersion r prev prevHash = (bumpString v (maxBump commits), commits, none) := by
  unfold getNextVersion
  rw [hv, hc]

/-! ## Classification -/

theorem classify_ne_invalid (r : Repository) (cType cMessage : Str) :
    classify r cType cMessage ≠ VersionInvalid := by
  unfold classify
  split_ifs <;> simp

theorem parseCommitMessage_version (r : Repository) (text : Str) :
    (parseCommitMessage r text).1.Version =
      classify r (parseCommitMessage r text).1.Typ (parseCommitMessage r text).1.Message := by
  rfl

theorem parseCommitMessage_ne_invalid (r : Repository) (text : Str) :
    (parseCommitMessage r text).1.Version ≠ VersionInvalid := by
  rw [parseCommitMessage_version]; exact classify_ne_invalid _ _ _

/-- C1 (the code departs from the claim). The message
`fix: minor change\n\nBREAKING CHANGE: removed API` contains the marker `BREAKING CHANGE:`,
yet `parseCommitMessage` classifies it as Patch, with type `fix` and message
`minor change`: the marker is looked for in the text the header pattern captured, which
ends at the first newline. The same body under a first line that matches no header
pattern is classified Major. -/
theorem parseCommitMessage_breaking_change_in_body (git : Git) :
    stringsContains "fix: minor change\n\nBREAKING CHANGE: removed API".toList breakingChangeText = true ∧
    (parseCommitMessage (newRepository git)
        "fix: minor change\n\nBREAKING CHANGE: removed API".toList).1 =
      { Version := VersionPatch, Hash := [], Typ := "fix".toList, Scope := [],
        Message := "minor change".toList } ∧
    (parseCommitMessage (newRepository git)
        "minor change\n\nBREAKING CHANGE: removed API".toList).1.Version = VersionMajor := by
  exact ⟨by decide, rfl, rfl⟩

/-- C10. When the parsed message text does not contain `BREAKING CHANGE:`,
`parseCommitMessage` assigns Major to the type `break`, Minor to `feat`, Patch to `fix`,
`ref` and `perf`, and None to every other type, the empty one included; the magnitude is
never Invalid. -/
theorem parseCommitMessage_type_table (git : Git) (text : Str)
    (h : stringsContains (parseCommitMessage (newRepository git) text).1.Message
      breakingChangeText = false) :
    ((parseCommitMessage (newRepository git) text).1.Typ = "break".toList →
      (parseCommitMessage (newRepository git) text).1.Version = VersionMajor) ∧
    ((parseCommitMessage (newRepository git) text).1.Typ = "feat".toList →
      (parseCommitMessage (newRepository git) text).1.Version = VersionMinor) ∧
    ((parseCommitMessage (newRepository git) text).1.Typ = "fix".toList ∨
      (parseCommitMessage (newRepository git) text).1.Typ = "ref".toList ∨
      (parseCommitMessage (newRepository git) text).1.Typ = "perf".toList →
      (parseCommitMessage (newRepository git) text).1.Version = VersionPatch) ∧
    ((parseCommitMessage (newRepository git) text).1.Typ ∉
        ["break".toList, "feat".toList, "fix".toList, "ref".toList, "perf".toList] →
      (parseCommitMessage (newRepository git) text).1.Version = VersionNone) ∧
    ∀ other : Str, (parseCommitMessage (newRepository git) other).1.Version ≠ VersionInvalid := by
  refine ⟨?_, ?_, ?_, ?_, fun other => parseCommitMessage_ne_invalid _ other⟩ <;>
    rw [parseCommitMessage_version] <;>
    generalize (parseCommitMessage (newRepository git) text).1.Typ = t at * <;>
    generalize (parseCommitMessage (newRepository git) text).1.Message = m at *
  · rintro rfl; simp [classify, h, newRepository, inStringSlice]
  · rintro rfl; simp [classify, h, newRepository, inStringSlice]
  · rintro (rfl | rfl | rfl) <;> simp [classify, h, newRepository, inStringSlice]
  · intro hn
    simp at hn
    obtain ⟨h1, h2, h3, h4, h5⟩ := hn
    simp [classify, h, newRepository, inStringSlice, Ne.symm h1, Ne.symm h2, Ne.symm h3,
      Ne.symm h4, Ne.symm h5]

/-- Witness of C10 on the message `feat(api): add x`. -/
theorem parseCommitMessage_type_table_witness :
    (parseCommitMessage (newRepository sampleGit) "feat(api): add x".toList).1.Version =
      VersionMinor :=
  (parseCommitMessage_type_table sampleGit "feat(api): add x".toList (by decide)).2.1 (by decide)


/-! ## Versions and histories -/

theorem wrapInt64_eq {i : Int} (h1 : -2 ^ 63 ≤ i) (h2 : i < 2 ^ 63) : wrapInt64 i = i := by
  unfold wrapInt64
  omega

theorem parseInt64_range {s : Str} {x : Int} (h : parseInt64 s = some x) :
    0 ≤ x ∧ x < 2 ^ 63 := by
  unfold parseInt64 at h
  split at h
  · simp at h
  · split at h
    · rename_i hlt
      simp only [Option.some.injEq] at h
      subst h
      constructor
      · exact Int.natCast_nonneg _
      · exact_mod_cast hlt
    · simp at h

theorem parseSegment_range {s : Option Str} {x : Int} (h : parseSegment s = some x) :
    0 ≤ x ∧ x < 2 ^ 63 := by
  cases s with
  | none => simp [parseSegment] at h; subst h; norm_num
  | some d => exact parseInt64_range h

theorem NewVersion_range {s : Str} {v : Version} (h : NewVersion s = some v) :
    (0 ≤ v.major ∧ v.major < 2 ^ 63) ∧ (0 ≤ v.minor ∧ v.minor < 2 ^ 63) ∧
    (0 ≤ v.patch ∧ v.patch < 2 ^ 63) := by
  unfold NewVersion at h
  split at h
  · simp at h
  · rename_i major minor patch pre metadata heq
    split at h
    · rename_i ma mi pa h1 h2 h3
      simp only [Option.some.injEq] at h
      subst h
      exact ⟨parseInt64_range h1, parseSegment_range h2, parseSegment_range h3⟩
    · simp at h

theorem String_ne_nil (v : Version) : v.String ≠ [] := by
  unfold Version.String
  simp

theorem bumpString_eq_nil_iff (v : Version) (bump : SemanticVersion) :
    bumpString v bump = [] ↔ bump = VersionInvalid ∨ bump = VersionNone := by
  cases bump <;> simp [bumpString, applyBump, String_ne_nil]

theorem forEachCommit_none (r : Repository) (hash : Str) (walk : List RawCommit) :
    (forEachCommit r hash walk none).2 = none ∧
    ∀ c ∈ (forEachCommit r hash walk none).1, c.Version ≠ VersionInvalid := by
  induction walk with
  | nil => simp [forEachCommit]
  | cons c rest ih =>
    unfold forEachCommit
    by_cases hc : c.hash = hash
    · simp [hc]
    · simp only [hc, if_false]
      have hp : (parseCommitMessage r c.message).2 = none := rfl
      constructor
      · simpa [parseCommitMessage] using ih.1
      · intro x hx
        simp [parseCommitMessage] at hx
        rcases hx with rfl | hx
        · exact classify_ne_invalid _ _ _
        · exact ih.2 x hx

theorem commitsSince_ok (r : Repository) (hash head : Str) (walk : List RawCommit)
    (hh : r.git.head = .ok head) (hl : r.git.log = .ok (walk, none)) :
    commitsSince r hash = ((forEachCommit r hash walk none).1, none) := by
  unfold commitsSince
  rw [hh, hl]
  exact Prod.ext rfl (forEachCommit_none r hash walk).1


/-! ## The next version -/

/-- C2. For a base version that parses and the commits `commitsSince` classified,
`getNextVersion` applies the bump `maxBump commits`, which is the maximum magnitude of
the sequence: no commit exceeds it and, when the sequence is not empty, one commit has
it. A Major commit anywhere gives the major increment, and a repository whose commits
are a reordering of the sequence gets the same next version. -/
theorem getNextVersion_bump_is_maximum (r : Repository) (prev prevHash : Str) (v : Version)
    (commits : List Commit) (hv : NewVersion prev = some v)
    (hc : commitsSince r prevHash = (commits, none)) :
    getNextVersion r prev prevHash = (bumpString v (maxBump commits), commits, none) ∧
    (∀ c ∈ commits, c.Version.toNat ≤ (maxBump commits).toNat) ∧
    (commits ≠ [] → ∃ c ∈ commits, c.Version = maxBump commits) ∧
    ((∃ c ∈ commits, c.Version = VersionMajor) →
      getNextVersion r prev prevHash = (v.IncMajor.String, commits, none)) ∧
    (∀ (r2 : Repository) (commits2 : List Commit),
      commitsSince r2 prevHash = (commits2, none) → commits2.Perm commits →
      (getNextVersion r2 prev prevHash).1 = (getNextVersion r prev prevHash).1) := by
  refine ⟨getNextVersion_eq r prev prevHash v commits hv hc, maxBump_ge commits,
    maxBump_mem commits, ?_, ?_⟩
  · intro hmajor
    rw [getNextVersion_eq r prev prevHash v commits hv hc, maxBump_major hmajor]
    rfl
  · intro r2 commits2 hc2 hperm
    rw [getNextVersion_eq r prev prevHash v commits hv hc,
      getNextVersion_eq r2 prev prevHash v commits2 hv hc2, maxBump_perm hperm]

/-- Witness of C2: from `0.0.0`, the commits `feat: add x` and `fix: correct y` give the
minor increment `0.1.0`. -/
theorem getNextVersion_bump_is_maximum_witness :
    getNextVersion (newRepository sampleGit) "0.0.0".toList [] =
      ("0.1.0".toList, sampleCommits, none) :=
  (getNextVersion_bump_is_maximum (newRepository sampleGit) "0.0.0".toList []
    ⟨0, 0, 0, [], []⟩ sampleCommits (by decide) (by decide)).1

/-- C3, counterexample. The base `1.2.3-rc1` parses, the only pending commit `fix: a`
has the winning magnitude Patch, and `getNextVersion` returns `1.2.3`, not `1.2.4`. -/
theorem getNextVersion_patch_on_prerelease :
    NewVersion "1.2.3-rc1".toList = some ⟨1, 2, 3, "rc1".toList, []⟩ ∧
    maxBump (commitsSince (newRepository fixOnlyGit)
      "3333333333333333333333333333333333333333".toList).1 = VersionPatch ∧
    (getNextVersion (newRepository fixOnlyGit) "1.2.3-rc1".toList
      "3333333333333333333333333333333333333333".toList).1 = "1.2.3".toList ∧
    (getNextVersion (newRepository fixOnlyGit) "1.2.3-rc1".toList
      "3333333333333333333333333333333333333333".toList).1 ≠ tripleString 1 2 (3 + 1) := by
  decide

/-- C3, amended. For a base version that parses, `getNextVersion` applies one increment
of the winning magnitude and drops the labels of the base: Major gives `(major+1).0.0`,
Minor gives `major.(minor+1).0`, Patch gives `major.minor.(patch+1)` when the base has no
pre-release label and `major.minor.patch` when it has one. The component incremented is
below the largest `int64`. -/
theorem getNextVersion_single_increment (r : Repository) (prev prevHash : Str) (v : Version)
    (commits : List Commit) (hv : NewVersion prev = some v)
    (hc : commitsSince r prevHash = (commits, none)) :
    (maxBump commits = VersionMajor → v.major < 2 ^ 63 - 1 →
      getNextVersion r prev prevHash = (tripleString (v.major + 1) 0 0, commits, none)) ∧
    (maxBump commits = VersionMinor → v.minor < 2 ^ 63 - 1 →
      getNextVersion r prev prevHash = (tripleString v.major (v.minor + 1) 0, commits, none)) ∧
    (maxBump commits = VersionPatch → v.pre = [] → v.patch < 2 ^ 63 - 1 →
      getNextVersion r prev prevHash =
        (tripleString v.major v.minor (v.patch + 1), commits, none)) ∧
    (maxBump commits = VersionPatch → v.pre ≠ [] →
      getNextVersion r prev prevHash = (tripleString v.major v.minor v.patch, commits, none)) := by
  obtain ⟨⟨hma, _⟩, ⟨hmi, _⟩, ⟨hpa, _⟩⟩ := NewVersion_range hv
  rw [getNextVersion_eq r prev prevHash v commits hv hc]
  refine ⟨?_, ?_, ?_, ?_⟩
  · intro hb hlt
    rw [hb]
    simp [bumpString, applyBump, Version.IncMajor, Version.String, tripleString,
      wrapInt64_eq (i := v.major + 1) (by omega) (by omega)]
  · intro hb hlt
    rw [hb]
    simp [bumpString, applyBump, Version.IncMinor, Version.String, tripleString,
      wrapInt64_eq (i := v.minor + 1) (by omega) (by omega)]
  · intro hb hpre hlt
    rw [hb]
    simp [bumpString, applyBump, Version.IncPatch, Version.String, tripleString, hpre,
      wrapInt64_eq (i := v.patch + 1) (by omega) (by omega)]
  · intro hb hpre
    rw [hb]
    simp [bumpString, applyBump, Version.IncPatch, Version.String, tripleString, hpre]

/-- Witness of C3, amended: from `1.2.3-rc1` the commit `fix: a` gives `1.2.3`. -/
theorem getNextVersion_single_increment_witness :
    getNextVersion (newRepository fixOnlyGit) "1.2.3-rc1".toList
        "3333333333333333333333333333333333333333".toList =
      (tripleString 1 2 3, fixOnlyCommits, none) ∧
    (getNextVersion (newRepository sampleGit) "0.0.0".toList []).1 = "0.1.0".toList ∧
    (getNextVersion (newRepository threeCommitsGit) "0.0.0".toList []).1 = "0.0.1".toList :=
  ⟨(getNextVersion_single_increment (newRepository fixOnlyGit) "1.2.3-rc1".toList
      "3333333333333333333333333333333333333333".toList ⟨1, 2, 3, "rc1".toList, []⟩
      fixOnlyCommits (by decide) (by decide)).2.2.2 (by decide) (by decide),
    congrArg Prod.fst ((getNextVersion_single_increment (newRepository sampleGit)
      "0.0.0".toList [] ⟨0, 0, 0, [], []⟩ sampleCommits (by decide) (by decide)).2.1
      (by decide) (by decide)),
    congrArg Prod.fst ((getNextVersion_single_increment (newRepository threeCommitsGit)
      "0.0.0".toList [] ⟨0, 0, 0, [], []⟩
      (commitsSince (newRepository threeCommitsGit) []).1 (by decide) (by decide)).2.2.1
      (by decide) (by decide) (by decide))⟩

theorem maxBump_low_iff (commits : List Commit)
    (hne : ∀ c ∈ commits, c.Version ≠ VersionInvalid) :
    (maxBump commits = VersionInvalid ∨ maxBump commits = VersionNone) ↔
      ∀ c ∈ commits, c.Version = VersionNone := by
  constructor
  · intro h c hc
    have hle := maxBump_ge commits c hc
    have hn := hne c hc
    rcases h with h | h <;> rw [h] at hle <;>
      cases hv : c.Version <;> simp [hv, SemanticVersion.toNat] at hle hn ⊢
  · intro h
    by_cases he : commits = []
    · left; subst he; rfl
    · obtain ⟨c, hc, hce⟩ := maxBump_mem commits he
      right; rw [← hce]; exact h c hc

/-- C9. For a base version that parses and a history that can be walked,
`getNextVersion` returns without error, and the next version it returns is empty exactly
when every commit it returns has magnitude None. -/
theorem getNextVersion_empty_iff_all_none (r : Repository) (prev prevHash : Str)
    (v : Version) (head : Str) (walk : List RawCommit) (hv : NewVersion prev = some v)
    (hh : r.git.head = .ok head) (hl : r.git.log = .ok (walk, none)) :
    ∃ (nextVersion : Str) (commits : List Commit),
      getNextVersion r prev prevHash = (nextVersion, commits, none) ∧
      (nextVersion = [] ↔ ∀ c ∈ commits, c.Version = VersionNone) := by
  refine ⟨_, _, getNextVersion_eq r prev prevHash v _ hv
    (commitsSince_ok r prevHash head walk hh hl), ?_⟩
  rw [bumpString_eq_nil_iff]
  exact maxBump_low_iff _ (forEachCommit_none r prevHash walk).2

/-- Witness of C9 on the repository `sampleGit` and the base `0.0.0`. -/
theorem getNextVersion_empty_iff_all_none_witness :
    ∃ (nextVersion : Str) (commits : List Commit),
      getNextVersion (newRepository sampleGit) "0.0.0".toList [] =
        (nextVersion, commits, none) ∧
      (nextVersion = [] ↔ ∀ c ∈ commits, c.Version = VersionNone) :=
  getNextVersion_empty_iff_all_none (newRepository sampleGit) "0.0.0".toList []
    ⟨0, 0, 0, [], []⟩ "1111111111111111111111111111111111111111".toList
    [⟨"1111111111111111111111111111111111111111".toList, "feat: add x".toList⟩,
      ⟨"2222222222222222222222222222222222222222".toList, "fix: correct y".toList⟩]
    (by decide) rfl rfl

/-! ## Tag resolution -/

theorem forEachTag_cons_some (p : Reference) (rest : List Reference) (c v : Version)
    (h : Str) (hv : NewVersion p.short = some v) :
    forEachTag (p :: rest) (some c) h =
      if c.LessThan v then forEachTag rest (some v) p.hash else forEachTag rest (some c) h := by
  rw [forEachTag]
  simp only [hv, derefLessThan]
  cases c.LessThan v <;> rfl

theorem forEachTag_cons_unparsable (p : Reference) (rest : List Reference)
    (current : Option Version) (h : Str) (hv : NewVersion p.short = none) :
    forEachTag (p :: rest) current h =
      .panic "invalid memory address or nil pointer dereference" := by
  rw [forEachTag]
  simp only [hv]
  cases current <;> rfl

theorem forEachTag_cons_nil_current (p : Reference) (rest : List Reference) (h : Str) :
    forEachTag (p :: rest) none h =
      .panic "invalid memory address or nil pointer dereference" := by
  rw [forEachTag]
  rfl

theorem forEachTag_panic_of_unparsable (tags : List Reference) :
    ∀ (current : Option Version) (hash : Str),
      (∃ p ∈ tags, NewVersion p.short = none) →
      forEachTag tags current hash =
        .panic "invalid memory address or nil pointer dereference" := by
  induction tags with
  | nil => intro _ _ h; simp at h
  | cons p rest ih =>
    intro current hash h
    cases hv : NewVersion p.short with
    | none => exact forEachTag_cons_unparsable p rest current hash hv
    | some v =>
      have hrest : ∃ q ∈ rest, NewVersion q.short = none := by
        obtain ⟨q, hq, hqn⟩ := h
        rcases List.mem_cons.1 hq with rfl | hq
        · rw [hv] at hqn; cases hqn
        · exact ⟨q, hq, hqn⟩
      cases current with
      | none => exact forEachTag_cons_nil_current p rest hash
      | some c =>
        rw [forEachTag_cons_some p rest c v hash hv]
        split
        · exact ih _ _ hrest
        · exact ih _ _ hrest

theorem forEachTag_key {κ : Type} [LinearOrder κ] (K : Version → κ) (P : Version → Prop)
    (hK : ∀ v o, P v → P o → (v.LessThan o = true ↔ K v < K o)) (tags : List Reference) :
    ∀ (c : Version) (h : Str), P c →
      (∀ p ∈ tags, ∃ v, NewVersion p.short = some v ∧ P v) →
      ∃ c2 h2, forEachTag tags (some c) h = .ret (some c2, h2) ∧ P c2 ∧ K c ≤ K c2 ∧
        (∀ p ∈ tags, ∀ v, NewVersion p.short = some v → K v ≤ K c2) ∧
        ((c2 = c ∧ h2 = h) ∨
          (∃ p ∈ tags, NewVersion p.short = some c2 ∧ p.hash = h2 ∧ K c < K c2)) := by
  induction tags with
  | nil =>
    intro c h hc _
    exact ⟨c, h, rfl, hc, le_refl _, by simp, Or.inl ⟨rfl, rfl⟩⟩
  | cons p rest ih =>
    intro c h hc hall
    obtain ⟨v, hv, hPv⟩ := hall p (List.mem_cons_self _ _)
    have hrest : ∀ q ∈ rest, ∃ v, NewVersion q.short = some v ∧ P v :=
      fun q hq => hall q (List.mem_cons_of_mem _ hq)
    rw [forEachTag_cons_some p rest c v h hv]
    cases hlt : c.LessThan v with
    | true =>
      simp only [if_true]
      have hkey : K c < K v := (hK c v hc hPv).1 hlt
      obtain ⟨c2, h2, hrun, hP2, hle, hmax, hcase⟩ := ih v p.hash hPv hrest
      refine ⟨c2, h2, hrun, hP2, le_trans (le_of_lt hkey) hle, ?_, ?_⟩
      · intro q hq w hw
        rcases List.mem_cons.1 hq with rfl | hq
        · rw [hv] at hw; cases hw; exact hle
        · exact hmax q hq w hw
      · right
        rcases hcase with ⟨rfl, rfl⟩ | ⟨q, hq, hqv, hqh, hqlt⟩
        · exact ⟨p, List.mem_cons_self _ _, hv, rfl, hkey⟩
        · exact ⟨q, List.mem_cons_of_mem _ hq, hqv, hqh, lt_trans hkey hqlt⟩
    | false =>
      simp only [Bool.false_eq_true, if_false]
      have hkey : ¬ K c < K v := fun hlt2 => by
        have := (hK c v hc hPv).2 hlt2
        rw [hlt] at this; cases this
      obtain ⟨c2, h2, hrun, hP2, hle, hmax, hcase⟩ := ih c h hc hrest
      refine ⟨c2, h2, hrun, hP2, hle, ?_, ?_⟩
      · intro q hq w hw
        rcases List.mem_cons.1 hq with rfl | hq
        · rw [hv] at hw; cases hw; exact le_trans (not_lt.1 hkey) hle
        · exact hmax q hq w hw
      · rcases hcase with hsame | ⟨q, hq, hqv, hqh, hqlt⟩
        · exact Or.inl hsame
        · exact Or.inr ⟨q, List.mem_cons_of_mem _ hq, hqv, hqh, hqlt⟩

theorem compareSegment_eq_zero {a b : Int} : compareSegment a b = 0 ↔ a = b := by
  unfold compareSegment
  split_ifs with h1 h2
  · simp; omega
  · simp; omega
  · simp; omega

theorem compareSegment_neg {a b : Int} : compareSegment a b < 0 ↔ a < b := by
  unfold compareSegment
  split_ifs with h1 h2
  · simp [h1]
  · simp; omega
  · simp; omega

theorem canonicalPart_iff (part : Str) :
    canonicalPart part = true ↔
      part ≠ [] ∧ ∀ n, parseUint64 part = some n → part = formatNat n := by
  unfold canonicalPart
  cases part with
  | nil => simp
  | cons c cs => cases parseUint64 (c :: cs) <;> simp

theorem canonicalVersion_iff (v : Version) :
    canonicalVersion v = true ↔
      v.pre = [] ∨ ∀ part ∈ splitDots v.pre, canonicalPart part = true := by
  unfold canonicalVersion
  simp [List.isEmpty_iff]

theorem charToNat_injective {a b : Char} (h : a.toNat = b.toNat) : a = b := by
  apply Char.ext
  apply UInt32.ext
  exact h

theorem lex_cons_of_ne {x y : ℕ} {l m : List ℕ} (h : x ≠ y) :
    List.Lex (· < ·) (x :: l) (y :: m) ↔ x < y := by
  constructor
  · intro hl
    cases hl with
    | cons _ => exact absurd rfl h
    | rel hr => exact hr
  · exact List.Lex.rel

theorem strGt_iff (s o : Str) :
    strGt s o = true ↔ List.Lex (· < ·) (o.map Char.toNat) (s.map Char.toNat) := by
  induction s generalizing o with
  | nil => cases o <;> simp [strGt]
  | cons a s ih =>
    cases o with
    | nil => simp [strGt]; exact List.Lex.nil
    | cons b o =>
      simp only [strGt, List.map_cons]
      by_cases hab : a = b
      · subst hab
        simp only [if_true]
        rw [ih o]
        exact (List.Lex.cons_iff).symm
      · simp only [hab, if_false, decide_eq_true_eq]
        have hne : b.toNat ≠ a.toNat := fun h => hab (charToNat_injective h).symm
        exact (lex_cons_of_ne hne).symm


theorem map_toNat_injective {s o : Str} (h : s.map Char.toNat = o.map Char.toNat) : s = o :=
  List.map_injective_iff.2 (fun _ _ hab => charToNat_injective hab) h

theorem comparePrePart_cases (s o : Str) (hs : canonicalPart s = true) (ho : canonicalPart o = true) :
    (comparePrePart s o = 0 ∧ s = o) ∨
    (comparePrePart s o = -1 ∧ partKey s < partKey o) ∨
    (comparePrePart s o = 1 ∧ partKey o < partKey s) := by
  rw [canonicalPart_iff] at hs ho
  by_cases heq : s = o
  · left; exact ⟨by simp [comparePrePart, heq], heq⟩
  · right
    unfold comparePrePart partKey
    simp only [heq, if_false, hs.1, ho.1]
    cases hpo : parseUint64 o with
    | none =>
      cases hps : parseUint64 s with
      | none =>
        simp only
        by_cases hgt : strGt s o = true
        · right
          refine ⟨by simp [hgt], ?_⟩
          rw [Sum.Lex.inr_lt_inr_iff]
          exact (strGt_iff s o).1 hgt
        · left
          refine ⟨by simp [hgt], ?_⟩
          rw [Sum.Lex.inr_lt_inr_iff]
          have hne : s.map Char.toNat ≠ o.map Char.toNat := fun h => heq (map_toNat_injective h)
          have hnlt : ¬ (o.map Char.toNat < s.map Char.toNat) := fun h => hgt ((strGt_iff s o).2 h)
          exact lt_of_le_of_ne (not_lt.1 hnlt) hne
      | some si =>
        left
        exact ⟨rfl, Sum.Lex.inl_lt_inr _ _⟩
    | some oi =>
      cases hps : parseUint64 s with
      | none =>
        right
        exact ⟨rfl, Sum.Lex.inl_lt_inr _ _⟩
      | some si =>
        simp only
        have hne : si ≠ oi := by
          rintro rfl
          exact heq ((hs.2 si hps).trans (ho.2 si hpo).symm)
        by_cases hgt : si > oi
        · right
          exact ⟨by simp [hgt], Sum.Lex.inl_lt_inl_iff.2 hgt⟩
        · left
          exact ⟨by simp [hgt], Sum.Lex.inl_lt_inl_iff.2 (by omega)⟩

theorem lex_cons_self {κ : Type} [LinearOrder κ] (k : κ) (l m : List κ) :
    k :: l < k :: m ↔ l < m := List.Lex.cons_iff

theorem lex_cons_lt {κ : Type} [LinearOrder κ] {a b : κ} (h : a < b) (l m : List κ) :
    a :: l < b :: m := List.Lex.rel h

theorem lex_cons_not_lt {κ : Type} [LinearOrder κ] {a b : κ} (h : b < a) (l m : List κ) :
    ¬ (a :: l < b :: m) := by
  intro hl
  exact lt_asymm (lex_cons_lt h m l) hl

theorem comparePreParts_neg (fuel : Nat) :
    ∀ (xs ys : List Str), (∀ x ∈ xs, canonicalPart x = true) → (∀ y ∈ ys, canonicalPart y = true) →
      max xs.length ys.length ≤ fuel →
      (comparePreParts fuel xs ys < 0 ↔ xs.map partKey < ys.map partKey) := by
  induction fuel with
  | zero =>
    intro xs ys _ _ hlen
    have hx : xs = [] := List.length_eq_zero.1 (by omega)
    have hy : ys = [] := List.length_eq_zero.1 (by omega)
    subst hx hy
    simp [comparePreParts]
  | succ fuel ih =>
    intro xs ys hxs hys hlen
    cases xs with
    | nil =>
      cases ys with
      | nil =>
        have := ih [] [] (by simp) (by simp) (by simp)
        simpa [comparePreParts, comparePrePart] using this
      | cons y ys =>
        have hy := ((canonicalPart_iff y).1 (hys y (List.mem_cons_self _ _))).1
        simp only [comparePreParts, List.headD, comparePrePart, List.map_nil, List.map_cons]
        simp [Ne.symm hy, hy, List.nil_lt_cons]
    | cons x xs =>
      cases ys with
      | nil =>
        have hx := ((canonicalPart_iff x).1 (hxs x (List.mem_cons_self _ _))).1
        simp only [comparePreParts, List.headD, comparePrePart, List.map_nil, List.map_cons]
        simp [hx]
      | cons y ys =>
        have hx := hxs x (List.mem_cons_self _ _)
        have hy := hys y (List.mem_cons_self _ _)
        have hrec := ih xs ys (fun a ha => hxs a (List.mem_cons_of_mem _ ha))
          (fun a ha => hys a (List.mem_cons_of_mem _ ha))
          (by simp only [List.length_cons] at hlen; omega)
        simp only [comparePreParts, List.headD, List.tail_cons, List.map_cons]
        rcases comparePrePart_cases x y hx hy with ⟨hd, rfl⟩ | ⟨hd, hk⟩ | ⟨hd, hk⟩
        · simp only [hd, ne_eq, not_true_eq_false, if_false]
          rw [hrec, lex_cons_self]
        · simp only [hd]
          simp [lex_cons_lt hk]
        · simp only [hd]
          simp [lex_cons_not_lt hk]


theorem comparePrerelease_neg (a b : Str)
    (ha : ∀ part ∈ splitDots a, canonicalPart part = true)
    (hb : ∀ part ∈ splitDots b, canonicalPart part = true) :
    comparePrerelease a b < 0 ↔ (splitDots a).map partKey < (splitDots b).map partKey :=
  comparePreParts_neg _ _ _ ha hb (le_refl _)

theorem lessThan_iff_versionKey (v o : Version) (hv : canonicalVersion v = true)
    (ho : canonicalVersion o = true) :
    v.LessThan o = true ↔ versionKey v < versionKey o := by
  rw [canonicalVersion_iff] at hv ho
  unfold Version.LessThan Version.Compare versionKey
  simp only [decide_eq_true_eq, Prod.Lex.lt_iff, ofLex_toLex]
  by_cases h1 : v.major = o.major
  · by_cases h2 : v.minor = o.minor
    · by_cases h3 : v.patch = o.patch
      · simp only [h1, h2, h3, compareSegment_eq_zero.2, ne_eq, not_true_eq_false, if_false,
          lt_self_iff_false, true_and, false_or]
        by_cases hvp : v.pre = []
        · by_cases hop : o.pre = []
          · simp [hvp, hop]
          · simp [hvp, hop]
        · by_cases hop : o.pre = []
          · simp [hvp, hop, WithTop.coe_lt_top]
          · simp only [hvp, hop, false_and, if_false, WithTop.coe_lt_coe]
            exact comparePrerelease_neg _ _ (hv.resolve_left hvp) (ho.resolve_left hop)
      · simp [h1, h2, h3, compareSegment_neg, compareSegment_eq_zero]
    · simp [h1, h2, compareSegment_neg, compareSegment_eq_zero]
  · simp [h1, compareSegment_neg, compareSegment_eq_zero]


theorem initialVersion_parses :
    NewVersion initialVersion = some ⟨0, 0, 0, [], []⟩ := by decide

theorem getLatestVersion_of_forEachTag (r : Repository) (tags : List Reference)
    (c : Version) (h : Str) (ht : r.git.tags = .ok tags)
    (hrun : forEachTag tags (some ⟨0, 0, 0, [], []⟩) [] = .ret (some c, h)) :
    getLatestVersion r = .ret (c.String, h, none) := by
  unfold getLatestVersion
  rw [ht, initialVersion_parses]
  simp only [hrun]

theorem getLatestVersion_panic_of_unparsable (r : Repository) (tags : List Reference)
    (ht : r.git.tags = .ok tags) (hbad : ∃ p ∈ tags, NewVersion p.short = none) :
    getLatestVersion r = .panic "invalid memory address or nil pointer dereference" := by
  unfold getLatestVersion
  rw [ht]
  simp only [forEachTag_panic_of_unparsable tags _ _ hbad]

/-- C4 (the code departs from the claim). The name `latest` does not parse as a version,
and `getLatestVersion` on the tags `v1.0.0`, `latest` panics with a nil dereference, and
so does `Info`; on the same list without the tag `latest` it returns `1.0.0` and the
commit of `v1.0.0`. -/
theorem getLatestVersion_unparsable_tag_panics :
    NewVersion tagLatest.short = none ∧
    getLatestVersion (newRepository (taggedGit [tagV100, tagLatest])) =
      .panic "invalid memory address or nil pointer dereference" ∧
    Info (newRepository (taggedGit [tagV100, tagLatest])) =
      .panic "invalid memory address or nil pointer dereference" ∧
    getLatestVersion (newRepository (taggedGit [tagV100])) =
      .ret ("1.0.0".toList, tagV100.hash, none) := by
  decide

/-- C6 (the code departs from the claim). On the tags `nightly`, `2.1.0` the maximum of
`0.0.0` and the names that parse is `2.1.0`, the version of the tag `2.1.0`, but
`getLatestVersion` returns no version: it panics on the name `nightly`. -/
theorem getLatestVersion_no_maximum_on_unparsable_tag :
    NewVersion tagNightly.short = none ∧
    NewVersion tag210.short = some ⟨2, 1, 0, [], []⟩ ∧
    Version.LessThan ⟨0, 0, 0, [], []⟩ ⟨2, 1, 0, [], []⟩ = true ∧
    getLatestVersion (newRepository (taggedGit [tagNightly, tag210])) =
      .panic "invalid memory address or nil pointer dereference" := by
  decide

/-- C5, counterexample. The tags `1.0.0` and `v1.0.0` have the same precedence and point
at different commits: enumerated in one order `getLatestVersion` returns the commit of
`1.0.0`, in the other order the commit of `v1.0.0`. -/
theorem getLatestVersion_order_dependent :
    [tag100, tagV100].Perm [tagV100, tag100] ∧
    getLatestVersion (newRepository (taggedGit [tag100, tagV100])) =
      .ret ("1.0.0".toList, "1111111111111111111111111111111111111111".toList, none) ∧
    getLatestVersion (newRepository (taggedGit [tagV100, tag100])) =
      .ret ("1.0.0".toList, "2222222222222222222222222222222222222222".toList, none) ∧
    getLatestVersion (newRepository (taggedGit [tag100, tagV100])) ≠
      getLatestVersion (newRepository (taggedGit [tagV100, tag100])) :=
  ⟨List.Perm.swap _ _ _, by decide, by decide, by decide⟩

theorem canonicalTag_iff (p : Reference) :
    canonicalTag p = true ↔ ∃ v, NewVersion p.short = some v ∧ canonicalVersion v = true := by
  unfold canonicalTag
  cases NewVersion p.short <;> simp

theorem forEachTag_canonical (tags : List Reference)
    (hparse : ∀ p ∈ tags, canonicalTag p = true) :
    ∃ c h, forEachTag tags (some ⟨0, 0, 0, [], []⟩) [] = .ret (some c, h) ∧
      canonicalVersion c = true ∧
      (∀ p ∈ tags, ∀ v, NewVersion p.short = some v → versionKey v ≤ versionKey c) ∧
      ((c = ⟨0, 0, 0, [], []⟩ ∧ h = []) ∨
        (∃ p ∈ tags, NewVersion p.short = some c ∧ p.hash = h ∧
          versionKey ⟨0, 0, 0, [], []⟩ < versionKey c)) := by
  obtain ⟨c, h, hrun, hP, -, hmax, hcase⟩ :=
    forEachTag_key versionKey (fun v => canonicalVersion v = true) lessThan_iff_versionKey tags
      ⟨0, 0, 0, [], []⟩ [] rfl (fun p hp => (canonicalTag_iff p).1 (hparse p hp))
  exact ⟨c, h, hrun, hP, hmax, hcase⟩

/-- On tags whose names all parse, with canonical pre-release labels, `getLatestVersion`
returns the maximum of `0.0.0` and the versions of the tags, and the commit it returns
with a version above `0.0.0` is the commit of a tag with exactly that version. -/
theorem getLatestVersion_maximum (r : Repository) (tags : List Reference)
    (ht : r.git.tags = .ok tags) (hparse : ∀ p ∈ tags, canonicalTag p = true) :
    ∃ c h, getLatestVersion r = .ret (c.String, h, none) ∧
      versionKey ⟨0, 0, 0, [], []⟩ ≤ versionKey c ∧
      (∀ p ∈ tags, ∀ v, NewVersion p.short = some v → versionKey v ≤ versionKey c) ∧
      ((c = ⟨0, 0, 0, [], []⟩ ∧ h = []) ∨
        (∃ p ∈ tags, NewVersion p.short = some c ∧ p.hash = h)) := by
  obtain ⟨c, h, hrun, -, hle, hmax, hcase⟩ :=
    forEachTag_key versionKey (fun v => canonicalVersion v = true) lessThan_iff_versionKey tags
      ⟨0, 0, 0, [], []⟩ [] rfl (fun p hp => (canonicalTag_iff p).1 (hparse p hp))
  refine ⟨c, h, getLatestVersion_of_forEachTag r tags c h ht hrun, hle, hmax, ?_⟩
  rcases hcase with hsame | ⟨p, hp, hv, hh, -⟩
  · exact Or.inl hsame
  · exact Or.inr ⟨p, hp, hv, hh⟩

/-- C5, amended. When every tag name parses as a version, with numeric pre-release
identifiers written without leading zeros, and the tags of highest precedence, if that
precedence is above `0.0.0`, all have the same version and the same commit,
`getLatestVersion` returns, and returns the same version and commit for every order of
enumeration of the tags. -/
theorem getLatestVersion_perm (r1 r2 : Repository) (tags1 tags2 : List Reference)
    (ht1 : r1.git.tags = .ok tags1) (ht2 : r2.git.tags = .ok tags2)
    (hperm : tags1.Perm tags2)
    (hparse : ∀ p ∈ tags1, canonicalTag p = true)
    (hagree : ∀ p ∈ tags1, ∀ q ∈ tags1, maximalTag tags1 p = true →
      maximalTag tags1 q = true → aboveInitial p = true →
      NewVersion p.short = NewVersion q.short ∧ p.hash = q.hash) :
    ∃ version hash, getLatestVersion r1 = .ret (version, hash, none) ∧
      getLatestVersion r2 = .ret (version, hash, none) := by
  have hparse2 : ∀ p ∈ tags2, canonicalTag p = true :=
    fun p hp => hparse p (hperm.symm.subset hp)
  obtain ⟨c1, h1, hrun1, hP1, hmax1, hcase1⟩ := forEachTag_canonical tags1 hparse
  obtain ⟨c2, h2, hrun2, hP2, hmax2, hcase2⟩ := forEachTag_canonical tags2 hparse2
  have hmaximal : ∀ (p : Reference) (c : Version), NewVersion p.short = some c →
      canonicalVersion c = true →
      (∀ m ∈ tags1, ∀ v, NewVersion m.short = some v → versionKey v ≤ versionKey c) →
      maximalTag tags1 p = true := by
    intro p c hp hc hle
    unfold maximalTag
    rw [List.all_eq_true]
    intro m hm
    obtain ⟨v, hv, hcv⟩ := (canonicalTag_iff m).1 (hparse m hm)
    have hnot : ¬ (c.LessThan v = true) := by
      rw [lessThan_iff_versionKey c v hc hcv]
      exact not_lt.2 (hle m hm v hv)
    simpa [tagLess, hp, hv] using hnot
  have hsame : c1 = c2 ∧ h1 = h2 := by
    rcases hcase1 with ⟨rfl, rfl⟩ | ⟨p1, hp1, hv1, hh1, hlt1⟩
    · rcases hcase2 with ⟨rfl, rfl⟩ | ⟨p2, hp2, hv2, hh2, hlt2⟩
      · exact ⟨rfl, rfl⟩
      · exact absurd (hmax1 p2 (hperm.symm.subset hp2) c2 hv2) (not_le.2 hlt2)
    · rcases hcase2 with ⟨rfl, rfl⟩ | ⟨p2, hp2, hv2, hh2, hlt2⟩
      · exact absurd (hmax2 p1 (hperm.subset hp1) c1 hv1) (not_le.2 hlt1)
      · have habove : aboveInitial p1 = true := by
          unfold aboveInitial
          rw [initialVersion_parses, hv1]
          exact (lessThan_iff_versionKey ⟨0, 0, 0, [], []⟩ c1 rfl hP1).2 hlt1
        obtain ⟨hver, hhash⟩ := hagree p1 hp1 p2 (hperm.symm.subset hp2)
          (hmaximal p1 c1 hv1 hP1 hmax1)
          (hmaximal p2 c2 hv2 hP2 (fun m hm v hv => hmax2 m (hperm.subset hm) v hv)) habove
        rw [hv1, hv2] at hver
        cases hver
        exact ⟨rfl, hh1.symm.trans (hhash.trans hh2)⟩
  obtain ⟨rfl, rfl⟩ := hsame
  exact ⟨c1.String, h1, getLatestVersion_of_forEachTag r1 tags1 c1 h1 ht1 hrun1,
    getLatestVersion_of_forEachTag r2 tags2 c1 h1 ht2 hrun2⟩

/-- Witness of C5, amended, on the tags `1.0.0`, `v1.0.0`, `2.1.0`, `2.1.0-rc.1` and
another order of them. -/
theorem getLatestVersion_perm_witness :
    ∃ version hash,
      getLatestVersion (newRepository (taggedGit [tag100, tagV100, tag210, tag210rc])) =
        .ret (version, hash, none) ∧
      getLatestVersion (newRepository (taggedGit [tag210rc, tagV100, tag100, tag210])) =
        .ret (version, hash, none) :=
  getLatestVersion_perm (newRepository (taggedGit [tag100, tagV100, tag210, tag210rc]))
    (newRepository (taggedGit [tag210rc, tagV100, tag100, tag210]))
    [tag100, tagV100, tag210, tag210rc] [tag210rc, tagV100, tag100, tag210] rfl rfl
    (by decide) (by decide) (by decide)

/-! ## Round trip of version strings -/

theorem digit_facts : ∀ k < 10, (Char.ofNat (48 + k)).isDigit = true ∧
    (Char.ofNat (48 + k)).toNat - 48 = k := by decide

theorem digitsValue_append_singleton (l : Str) (c : Char) :
    digitsValue (l ++ [c]) = 10 * digitsValue l + (c.toNat - 48) := by
  simp [digitsValue, List.foldl_append]

theorem formatNatAux_spec (fuel : Nat) :
    ∀ (n : Nat) (acc : Str), n < fuel →
      ∃ ds : Str, formatNatAux fuel n acc = ds ++ acc ∧ ds ≠ [] ∧
        ds.all Char.isDigit = true ∧ digitsValue ds = n := by
  induction fuel with
  | zero => intro n acc h; omega
  | succ fuel ih =>
    intro n acc hn
    obtain ⟨hd1, hd2⟩ := digit_facts (n % 10) (Nat.mod_lt _ (by norm_num))
    unfold formatNatAux
    by_cases h0 : n / 10 = 0
    · refine ⟨[Char.ofNat (48 + n % 10)], by simp [h0], by simp, by simp [hd1], ?_⟩
      simp [digitsValue, hd2]
      omega
    · obtain ⟨ds, hds, -, hall, hval⟩ := ih (n / 10) (Char.ofNat (48 + n % 10) :: acc) (by omega)
      refine ⟨ds ++ [Char.ofNat (48 + n % 10)], by simp [h0, hds], by simp, ?_, ?_⟩
      · simp [List.all_append, hall, hd1]
      · rw [digitsValue_append_singleton, hval, hd2]; omega

theorem formatNat_spec (n : Nat) :
    formatNat n ≠ [] ∧ (formatNat n).all Char.isDigit = true ∧ digitsValue (formatNat n) = n := by
  obtain ⟨ds, hds, hne, hall, hval⟩ := formatNatAux_spec (n + 1) n [] (Nat.lt_succ_self n)
  unfold formatNat
  rw [hds, List.append_nil]
  exact ⟨hne, hall, hval⟩

theorem parseInt64_formatInt {i : Int} (h0 : 0 ≤ i) (h1 : i < 2 ^ 63) :
    parseInt64 (formatInt i) = some i := by
  obtain ⟨n, rfl⟩ := Int.eq_ofNat_of_zero_le h0
  obtain ⟨hne, hall, hval⟩ := formatNat_spec n
  have hlt : n < 2 ^ 63 := by exact_mod_cast h1
  show parseInt64 (formatNat n) = some (n : Int)
  unfold parseInt64
  cases hf : formatNat n with
  | nil => exact absurd hf hne
  | cons c cs =>
    rw [hf] at hall hval
    simp [hall, hval]
    omega

theorem takeWhile_append_stop {p : Char → Bool} (l r : Str) (hl : l.all p = true)
    (hr : r = [] ∨ ∃ c t, r = c :: t ∧ p c = false) : (l ++ r).takeWhile p = l := by
  induction l with
  | nil =>
    rcases hr with rfl | ⟨c, t, rfl, hc⟩
    · rfl
    · simp [List.takeWhile, hc]
  | cons a l ih =>
    simp only [List.all_cons, Bool.and_eq_true] at hl
    simp [List.takeWhile, hl.1, ih hl.2]

theorem dropWhile_append_stop {p : Char → Bool} (l r : Str) (hl : l.all p = true)
    (hr : r = [] ∨ ∃ c t, r = c :: t ∧ p c = false) : (l ++ r).dropWhile p = r := by
  induction l with
  | nil =>
    rcases hr with rfl | ⟨c, t, rfl, hc⟩
    · rfl
    · simp [List.dropWhile, hc]
  | cons a l ih =>
    simp only [List.all_cons, Bool.and_eq_true] at hl
    simp [List.dropWhile, hl.1, ih hl.2]


theorem isDigit_not_dot : Char.isDigit '.' = false := by decide
theorem isDigit_not_dash : Char.isDigit '-' = false := by decide
theorem isDigit_not_plus : Char.isDigit '+' = false := by decide
theorem isIdentChar_not_plus : isIdentChar '+' = false := by decide
theorem isIdentChar_not_dot : isIdentChar '.' = false := by decide

theorem splitDots_ne_nil (s : Str) : splitDots s ≠ [] := by
  cases s with
  | nil => simp [splitDots]
  | cons c s =>
    unfold splitDots
    split_ifs
    · simp
    · split <;> simp

theorem mem_splitDots (s : Str) :
    ∀ c ∈ s, c = '.' ∨ ∃ part ∈ splitDots s, c ∈ part := by
  induction s with
  | nil => intro c hc; simp at hc
  | cons a s ih =>
    intro c hc
    unfold splitDots
    by_cases ha : a = '.'
    · rcases List.mem_cons.1 hc with rfl | hc
      · exact Or.inl ha
      · rcases ih c hc with h | ⟨part, hp, hcp⟩
        · exact Or.inl h
        · exact Or.inr ⟨part, by simp [ha, hp], hcp⟩
    · simp only [ha, if_false]
      cases hs : splitDots s with
      | nil => exact absurd hs (splitDots_ne_nil s)
      | cons part parts =>
        simp only
        rcases List.mem_cons.1 hc with rfl | hc
        · exact Or.inr ⟨c :: part, by simp, by simp⟩
        · rcases ih c hc with h | ⟨q, hq, hcq⟩
          · exact Or.inl h
          · rw [hs] at hq
            rcases List.mem_cons.1 hq with rfl | hq
            · exact Or.inr ⟨a :: q, by simp, by simp [hcq]⟩
            · exact Or.inr ⟨q, by simp [hq], hcq⟩

theorem validIdentifiers_no_plus {s : Str} (h : validIdentifiers s = true) :
    s.all (fun c => c != '+') = true := by
  rw [List.all_eq_true]
  intro c hc
  rcases mem_splitDots s c hc with rfl | ⟨part, hp, hcp⟩
  · decide
  · unfold validIdentifiers at h
    rw [List.all_eq_true] at h
    have := h part hp
    simp only [Bool.and_eq_true, List.all_eq_true] at this
    have hid := this.2 c hcp
    by_contra hne
    simp at hne
    subst hne
    rw [isIdentChar_not_plus] at hid
    cases hid

theorem validIdentifiers_ne_nil {s : Str} (h : validIdentifiers s = true) : s ≠ [] := by
  rintro rfl
  revert h
  decide

theorem splitDots_of_no_dot (s : Str) (h : s.all isIdentChar = true) : splitDots s = [s] := by
  induction s with
  | nil => rfl
  | cons a s ih =>
    simp only [List.all_cons, Bool.and_eq_true] at h
    have ha : a ≠ '.' := by
      rintro rfl
      rw [isIdentChar_not_dot] at h
      cases h.1
    unfold splitDots
    simp [ha, ih h.2]

theorem validIdentifiers_of_ident {s : Str} (hne : s ≠ []) (h : s.all isIdentChar = true) :
    validIdentifiers s = true := by
  unfold validIdentifiers
  rw [splitDots_of_no_dot s h]
  cases s with
  | nil => exact absurd rfl hne
  | cons a s => simpa using h


theorem matchPre_labels {s pre rest : Str} (h : matchPre s = some (pre, rest)) :
    pre = [] ∨ validIdentifiers pre = true := by
  unfold matchPre at h
  split at h
  · simp only at h
    split_ifs at h with hv
    simp only [Option.some.injEq, Prod.mk.injEq] at h
    rw [← h.1]; exact Or.inr hv
  · simp only [Option.some.injEq, Prod.mk.injEq] at h
    exact Or.inl h.1.symm

theorem matchMetadata_labels {s md : Str} (h : matchMetadata s = some md) :
    md = [] ∨ validIdentifiers md = true := by
  unfold matchMetadata at h
  split at h
  · simp only [Option.some.injEq] at h
    exact Or.inl h.symm
  · split_ifs at h with hv
    simp only [Option.some.injEq] at h
    rw [← h]; exact Or.inr hv
  · cases h

theorem versionRegex_labels {s ma pre md : Str} {mi pa : Option Str}
    (h : versionRegex s = some (ma, mi, pa, pre, md)) :
    (pre = [] ∨ validIdentifiers pre = true) ∧ (md = [] ∨ validIdentifiers md = true) := by
  unfold versionRegex at h
  simp only at h
  split_ifs at h
  split at h
  · cases h
  · rename_i pre1 s4 hpre
    split at h
    · cases h
    · rename_i md1 hmd
      simp only [Option.some.injEq, Prod.mk.injEq] at h
      obtain ⟨-, -, -, rfl, rfl⟩ := h
      exact ⟨matchPre_labels hpre, matchMetadata_labels hmd⟩

theorem NewVersion_wellFormed {s : Str} {v : Version} (h : NewVersion s = some v) :
    v.WellFormed := by
  have hr := NewVersion_range h
  unfold NewVersion at h
  split at h
  · cases h
  · rename_i ma mi pa pre md heq
    split at h
    · simp only [Option.some.injEq] at h
      subst h
      exact ⟨hr.1, hr.2.1, hr.2.2, versionRegex_labels heq⟩
    · cases h


theorem optSegment_dot (t : Str) (h : (t.takeWhile Char.isDigit).isEmpty = false) :
    optSegment ('.' :: t) = (some (t.takeWhile Char.isDigit), t.dropWhile Char.isDigit) := by
  simp [optSegment, h]

theorem versionRegex_shape (A B C pre md : Str)
    (hA : A ≠ [] ∧ A.all Char.isDigit = true) (hB : B ≠ [] ∧ B.all Char.isDigit = true)
    (hC : C ≠ [] ∧ C.all Char.isDigit = true)
    (hpre : pre = [] ∨ validIdentifiers pre = true)
    (hmd : md = [] ∨ validIdentifiers md = true) :
    versionRegex (A ++ '.' :: (B ++ '.' :: (C ++ ((if pre ≠ [] then '-' :: pre else []) ++
      (if md ≠ [] then '+' :: md else []))))) = some (A, some B, some C, pre, md) := by
  have hmdP : (if md ≠ [] then '+' :: md else []) = [] ∨
      ∃ c t, (if md ≠ [] then '+' :: md else []) = c :: t ∧ c = '+' := by
    by_cases h : md = []
    · left; simp [h]
    · right; exact ⟨'+', md, by simp [h], rfl⟩
  generalize hM : (if md ≠ [] then '+' :: md else []) = M at hmdP
  have hmatchM : matchMetadata M = some md := by
    rw [← hM]
    rcases hmd with rfl | hv
    · rfl
    · have := validIdentifiers_ne_nil hv
      simp [this, matchMetadata, hv]
  have hT : matchPre ((if pre ≠ [] then '-' :: pre else []) ++ M) = some (pre, M) := by
    rcases hpre with rfl | hv
    · simp only [ne_eq, not_true_eq_false, if_false, List.nil_append]
      rcases hmdP with rfl | ⟨c, t, rfl, rfl⟩ <;> rfl
    · have hne := validIdentifiers_ne_nil hv
      have hstop : M = [] ∨ ∃ c t, M = c :: t ∧ (fun c => c != '+') c = false := by
        rcases hmdP with h | ⟨c, t, h, rfl⟩
        · exact Or.inl h
        · exact Or.inr ⟨'+', t, h, by decide⟩
      simp only [ne_eq, hne, not_false_eq_true, if_true, List.cons_append, matchPre,
        takeWhile_append_stop pre M (validIdentifiers_no_plus hv) hstop,
        dropWhile_append_stop pre M (validIdentifiers_no_plus hv) hstop, hv]
  generalize hTT : (if pre ≠ [] then '-' :: pre else []) ++ M = T at hT
  have hTstop : T = [] ∨ ∃ c t, T = c :: t ∧ Char.isDigit c = false := by
    rw [← hTT]
    by_cases h : pre = []
    · simp only [h, ne_eq, not_true_eq_false, if_false, List.nil_append]
      rcases hmdP with h | ⟨c, t, h, rfl⟩
      · exact Or.inl h
      · exact Or.inr ⟨'+', t, h, by decide⟩
    · right; exact ⟨'-', pre ++ M, by simp [h], by decide⟩
  have hdot : ∀ R : Str, ('.' :: R = [] ∨ ∃ c t, '.' :: R = c :: t ∧ Char.isDigit c = false) :=
    fun R => Or.inr ⟨'.', R, rfl, by decide⟩
  obtain ⟨a, A1, rfl⟩ := List.exists_cons_of_ne_nil hA.1
  have ha : a ≠ 'v' := by
    rintro rfl
    have := hA.2
    simp only [List.all_cons, Bool.and_eq_true] at this
    exact absurd this.1 (by decide)
  have hBne : (List.takeWhile Char.isDigit (B ++ '.' :: (C ++ T))).isEmpty = false := by
    rw [takeWhile_append_stop B _ hB.2 (hdot _)]
    cases B with
    | nil => exact absurd rfl hB.1
    | cons _ _ => rfl
  have hCne : (List.takeWhile Char.isDigit (C ++ T)).isEmpty = false := by
    rw [takeWhile_append_stop C _ hC.2 hTstop]
    cases C with
    | nil => exact absurd rfl hC.1
    | cons _ _ => rfl
  have hseg1 : optSegment ('.' :: (B ++ '.' :: (C ++ T))) = (some B, '.' :: (C ++ T)) := by
    rw [optSegment_dot _ hBne, takeWhile_append_stop B _ hB.2 (hdot _),
      dropWhile_append_stop B _ hB.2 (hdot _)]
  have hseg2 : optSegment ('.' :: (C ++ T)) = (some C, T) := by
    rw [optSegment_dot _ hCne, takeWhile_append_stop C _ hC.2 hTstop,
      dropWhile_append_stop C _ hC.2 hTstop]
  have hs0 : optLetterV ((a :: A1) ++ '.' :: (B ++ '.' :: (C ++ T))) =
      (a :: A1) ++ '.' :: (B ++ '.' :: (C ++ T)) := by
    simp only [List.cons_append]
    unfold optLetterV
    split
    · rename_i heq
      simp only [List.cons.injEq] at heq
      exact absurd heq.1 ha
    · rfl
  unfold versionRegex
  simp only [hs0, takeWhile_append_stop (a :: A1) _ hA.2 (hdot _),
    dropWhile_append_stop (a :: A1) _ hA.2 (hdot _), List.isEmpty_cons, Bool.false_eq_true,
    if_false, hseg1, hseg2, hT, hmatchM]

theorem NewVersion_String {v : Version} (h : v.WellFormed) : NewVersion v.String = some v := by
  obtain ⟨⟨ha0, ha1⟩, ⟨hb0, hb1⟩, ⟨hc0, hc1⟩, hpre, hmd⟩ := h
  obtain ⟨a, ha⟩ := Int.eq_ofNat_of_zero_le ha0
  obtain ⟨b, hb⟩ := Int.eq_ofNat_of_zero_le hb0
  obtain ⟨c, hc⟩ := Int.eq_ofNat_of_zero_le hc0
  have hA := formatNat_spec a
  have hB := formatNat_spec b
  have hC := formatNat_spec c
  have hshape := versionRegex_shape (formatInt v.major) (formatInt v.minor) (formatInt v.patch)
    v.pre v.metadata (by rw [ha]; exact ⟨hA.1, hA.2.1⟩) (by rw [hb]; exact ⟨hB.1, hB.2.1⟩)
    (by rw [hc]; exact ⟨hC.1, hC.2.1⟩) hpre hmd
  have hstr : v.String = formatInt v.major ++ '.' :: (formatInt v.minor ++ '.' ::
      (formatInt v.patch ++ ((if v.pre ≠ [] then '-' :: v.pre else []) ++
      (if v.metadata ≠ [] then '+' :: v.metadata else [])))) := by
    simp [Version.String]
  unfold NewVersion
  rw [hstr, hshape]
  simp only [parseSegment, parseInt64_formatInt ha0 ha1, parseInt64_formatInt hb0 hb1,
    parseInt64_formatInt hc0 hc1]


/-! ## The current tag and `Info` -/

theorem forEachTag_ret (tags : List Reference) :
    ∀ (c0 : Version) (h0 : Str) (cur : Option Version) (h : Str),
      forEachTag tags (some c0) h0 = .ret (cur, h) →
      ∃ c, cur = some c ∧
        ((c = c0 ∧ h = h0) ∨ ∃ p ∈ tags, NewVersion p.short = some c ∧ p.hash = h) := by
  induction tags with
  | nil =>
    intro c0 h0 cur h hrun
    rw [forEachTag] at hrun
    simp only [Go.ret.injEq, Prod.mk.injEq] at hrun
    exact ⟨c0, hrun.1.symm, Or.inl ⟨rfl, hrun.2.symm⟩⟩
  | cons p rest ih =>
    intro c0 h0 cur h hrun
    cases hv : NewVersion p.short with
    | none => rw [forEachTag_cons_unparsable p rest _ h0 hv] at hrun; cases hrun
    | some v =>
      rw [forEachTag_cons_some p rest c0 v h0 hv] at hrun
      split_ifs at hrun
      · obtain ⟨c, hc, hcase⟩ := ih v p.hash cur h hrun
        refine ⟨c, hc, Or.inr ?_⟩
        rcases hcase with ⟨rfl, rfl⟩ | ⟨q, hq, hqv, hqh⟩
        · exact ⟨p, List.mem_cons_self _ _, hv, rfl⟩
        · exact ⟨q, List.mem_cons_of_mem _ hq, hqv, hqh⟩
      · obtain ⟨c, hc, hcase⟩ := ih c0 h0 cur h hrun
        refine ⟨c, hc, ?_⟩
        rcases hcase with hsame | ⟨q, hq, hqv, hqh⟩
        · exact Or.inl hsame
        · exact Or.inr ⟨q, List.mem_cons_of_mem _ hq, hqv, hqh⟩

theorem getLatestVersion_ret {r : Repository} {lv lc : Str}
    (hget : getLatestVersion r = .ret (lv, lc, none)) :
    ∃ c : Version, c.WellFormed ∧ lv = c.String := by
  unfold getLatestVersion at hget
  rw [initialVersion_parses] at hget
  cases ht : r.git.tags with
  | error err => rw [ht] at hget; simp at hget
  | ok tags =>
    rw [ht] at hget
    simp only at hget
    cases hrun : forEachTag tags (some ⟨0, 0, 0, [], []⟩) [] with
    | panic msg => rw [hrun] at hget; simp at hget
    | ret res =>
      obtain ⟨cur, h⟩ := res
      obtain ⟨c, rfl, hcase⟩ := forEachTag_ret tags _ _ cur h hrun
      rw [hrun] at hget
      simp only [Go.ret.injEq, Prod.mk.injEq] at hget
      refine ⟨c, ?_, hget.1.symm⟩
      rcases hcase with ⟨rfl, -⟩ | ⟨p, -, hp, -⟩
      · exact NewVersion_wellFormed initialVersion_parses
      · exact NewVersion_wellFormed hp

theorem getLatestVersion_reparses {r : Repository} {lv lc : Str}
    (hget : getLatestVersion r = .ret (lv, lc, none)) :
    ∃ c : Version, NewVersion lv = some c ∧ c.String = lv := by
  obtain ⟨c, hwf, rfl⟩ := getLatestVersion_ret hget
  exact ⟨c, NewVersion_String hwf, rfl⟩

theorem commitsSince_at_head (r : Repository) (hd msg : Str) (rest : List RawCommit)
    (walkErr : Option Str) (hh : r.git.head = .ok hd)
    (hl : r.git.log = .ok (⟨hd, msg⟩ :: rest, walkErr)) :
    commitsSince r hd = ([], none) := by
  unfold commitsSince
  rw [hh, hl]
  simp [forEachCommit]

theorem getTreeStatus_ok (r : Repository) (hd : Str) (clean : Bool)
    (hh : r.git.head = .ok hd) (hs : r.git.statusIsClean = .ok clean) :
    getTreeStatus r = (hd, !clean, none) := by
  unfold getTreeStatus
  rw [hh, hs]

theorem Info_eq (r : Repository) (lv lc hd nv tag : Str) (clean : Bool)
    (commits : List Commit) (hget : getLatestVersion r = .ret (lv, lc, none))
    (hnext : getNextVersion r lv lc = (nv, commits, none))
    (hh : r.git.head = .ok hd) (hs : r.git.statusIsClean = .ok clean)
    (htag : createTag lv (if lc ≠ hd then hd else []) (!clean) = .ret tag) :
    Info r = .ret (⟨lv, tag, nv, commits⟩, none) := by
  unfold Info
  simp only [hget, hnext, getTreeStatus_ok r hd clean hh hs, htag, ReleaseInfo.zero]


theorem String_eq_labelled (v : Version) :
    v.String = labelled (tripleString v.major v.minor v.patch) v.pre v.metadata := by
  simp [Version.String, labelled, tripleString]

theorem hexDigit_isIdentChar :
    ∀ c ∈ "0123456789abcdef".toList, isIdentChar c = true := by decide

theorem isHash_short {hash : Str} (h : isHash hash = true) :
    hash ≠ [] ∧ ¬ hash.length < 7 ∧ hash.take 7 ≠ [] ∧
      validIdentifiers (hash.take 7) = true := by
  unfold isHash at h
  simp only [Bool.and_eq_true, beq_iff_eq, List.all_eq_true, List.contains_eq_any_beq, List.any_eq_true, beq_iff_eq] at h
  obtain ⟨hlen, hall⟩ := h
  have hne : hash ≠ [] := by rintro rfl; simp at hlen
  have htake : hash.take 7 ≠ [] := by
    intro h0
    have := congrArg List.length h0
    simp [List.length_take, hlen] at this
  refine ⟨hne, by omega, htake, validIdentifiers_of_ident htake ?_⟩
  rw [List.all_eq_true]
  intro c hc
  obtain ⟨d, hd, hcd⟩ := hall c (List.mem_of_mem_take hc)
  exact hexDigit_isIdentChar c (hcd ▸ hd)

theorem treeIsDirtyFlag_valid : validIdentifiers treeIsDirtyFlag = true := by decide

theorem createTag_eq (lv commit : Str) (isDirty : Bool) (v : Version)
    (hv : NewVersion lv = some v) (hc : commit = [] ∨ isHash commit = true) :
    createTag lv commit isDirty =
      .ret (labelled (tripleString v.major v.minor v.patch)
        (if commit ≠ [] then commit.take 7 else v.pre)
        (if isDirty then treeIsDirtyFlag else v.metadata)) := by
  have hdirty : ∀ w : Version, (w.SetMetadata treeIsDirtyFlag).1 =
      { w with metadata := treeIsDirtyFlag } := by
    intro w
    simp [Version.SetMetadata, treeIsDirtyFlag_valid]
  unfold createTag
  rw [hv]
  rcases hc with rfl | hhash
  · cases isDirty <;> simp [hdirty, String_eq_labelled]
  · obtain ⟨hne, hlen, htake, hvalid⟩ := isHash_short hhash
    have hpre : (v.SetPrerelease (commit.take 7)).1 = { v with pre := commit.take 7 } := by
      simp [Version.SetPrerelease, hvalid]
    cases isDirty <;> simp [hne, shortHash, hlen, hpre, hdirty, String_eq_labelled]


/-- C7, counterexample. The latest version `1.2.3-rc1` has a pre-release label and HEAD
is not the commit of its tag: `currentTag` is `1.2.3-1111111` with a clean tree and
`1.2.3-1111111+dirty` with a dirty one, not `1.2.3-rc1` followed by `-1111111`. -/
theorem Info_currentTag_replaces_label :
    Info (newRepository fixOnlyGit) =
      .ret (⟨"1.2.3-rc1".toList, "1.2.3-1111111".toList, "1.2.3".toList, fixOnlyCommits⟩,
        none) ∧
    "1.2.3-1111111".toList ≠ "1.2.3-rc1".toList ++ '-' ::
      "1111111111111111111111111111111111111111".toList.take 7 ∧
    Info (newRepository { fixOnlyGit with statusIsClean := .ok false }) =
      .ret (⟨"1.2.3-rc1".toList, "1.2.3-1111111+dirty".toList, "1.2.3".toList,
        fixOnlyCommits⟩, none) ∧
    "1.2.3-1111111+dirty".toList ≠ "1.2.3-rc1".toList ++ '-' ::
      "1111111111111111111111111111111111111111".toList.take 7 ++ "+dirty".toList := by
  decide

/-- C7, amended. When `getLatestVersion` returns and HEAD and the working-tree status are
available, `Info` returns without error and its `currentTag` is the triple of
`latestVersion` followed by `-` and a pre-release label, which is the first 7 characters
of the HEAD hash when HEAD is not the commit of the latest tag and the label of
`latestVersion` otherwise, and by `+` and a metadata label, which is `dirty` when the
tree is dirty and the label of `latestVersion` otherwise. For a `latestVersion` without
labels `currentTag` is `latestVersion-<7 characters>+dirty`, `latestVersion-<7
characters>` and `latestVersion+dirty` in the three cases of the claim. -/
theorem Info_currentTag (r : Repository) (lv lc hd : Str) (clean : Bool)
    (walk : List RawCommit) (hget : getLatestVersion r = .ret (lv, lc, none))
    (hh : r.git.head = .ok hd) (hhash : isHash hd = true)
    (hl : r.git.log = .ok (walk, none)) (hs : r.git.statusIsClean = .ok clean) :
    ∃ (v : Version) (info : ReleaseInfo),
      NewVersion lv = some v ∧ Info r = .ret (info, none) ∧ info.LatestVersion = lv ∧
      info.CurrentTag = labelled (tripleString v.major v.minor v.patch)
        (if lc ≠ hd then hd.take 7 else v.pre)
        (if clean then v.metadata else treeIsDirtyFlag) ∧
      (v.pre = [] → v.metadata = [] →
        (lc ≠ hd → clean = false →
          info.CurrentTag = lv ++ '-' :: hd.take 7 ++ "+dirty".toList) ∧
        (lc ≠ hd → clean = true → info.CurrentTag = lv ++ '-' :: hd.take 7) ∧
        (lc = hd → clean = false → info.CurrentTag = lv ++ "+dirty".toList)) := by
  obtain ⟨v, hv, hstr⟩ := getLatestVersion_reparses hget
  obtain ⟨hne, -, htake, -⟩ := isHash_short hhash
  have hnext := getNextVersion_eq r lv lc v _ hv (commitsSince_ok r lc hd walk hh hl)
  have htag := createTag_eq lv (if lc ≠ hd then hd else []) (!clean) v hv
    (by by_cases h : lc = hd <;> simp [h, hhash])
  have hinfo := Info_eq r lv lc hd _ _ clean _ hget hnext hh hs htag
  have hpre : (if (if lc ≠ hd then hd else []) ≠ [] then (if lc ≠ hd then hd else []).take 7
      else v.pre) = if lc ≠ hd then hd.take 7 else v.pre := by
    by_cases h : lc = hd <;> simp [h, hne]
  have hmd : (if (!clean) = true then treeIsDirtyFlag else v.metadata) =
      if clean then v.metadata else treeIsDirtyFlag := by
    cases clean <;> simp
  rw [hpre, hmd] at hinfo
  refine ⟨v, _, hv, hinfo, rfl, rfl, ?_⟩
  intro hp hm
  have hlv : lv = tripleString v.major v.minor v.patch := by
    rw [← hstr, String_eq_labelled, hp, hm]; simp [labelled]
  refine ⟨?_, ?_, ?_⟩
  · intro hne2 hc
    simp [labelled, hne2, hc, htake, hlv, hm, treeIsDirtyFlag]
  · intro hne2 hc
    simp [labelled, hne2, hc, htake, hlv, hm]
  · intro he hc
    simp [labelled, he, hc, hlv, hp, hm, treeIsDirtyFlag]

/-- Witness of C7, amended: the tag `v1.0.0` on the older commit and a dirty tree. -/
theorem Info_currentTag_witness :
    ∃ (v : Version) (info : ReleaseInfo),
      NewVersion "1.0.0".toList = some v ∧
      Info (newRepository (dirtyGit [tagV100])) = .ret (info, none) ∧
      info.LatestVersion = "1.0.0".toList ∧
      info.CurrentTag = labelled (tripleString v.major v.minor v.patch)
        (if tagV100.hash ≠ "1111111111111111111111111111111111111111".toList then
          "1111111111111111111111111111111111111111".toList.take 7 else v.pre)
        (if false then v.metadata else treeIsDirtyFlag) ∧
      (v.pre = [] → v.metadata = [] →
        (tagV100.hash ≠ "1111111111111111111111111111111111111111".toList → false = false →
          info.CurrentTag = "1.0.0".toList ++ '-' ::
            "1111111111111111111111111111111111111111".toList.take 7 ++ "+dirty".toList) ∧
        (tagV100.hash ≠ "1111111111111111111111111111111111111111".toList → false = true →
          info.CurrentTag = "1.0.0".toList ++ '-' ::
            "1111111111111111111111111111111111111111".toList.take 7) ∧
        (tagV100.hash = "1111111111111111111111111111111111111111".toList → false = false →
          info.CurrentTag = "1.0.0".toList ++ "+dirty".toList)) :=
  Info_currentTag (newRepository (dirtyGit [tagV100])) "1.0.0".toList tagV100.hash
    "1111111111111111111111111111111111111111".toList false
    [⟨"1111111111111111111111111111111111111111".toList, "feat: add x".toList⟩,
      ⟨"2222222222222222222222222222222222222222".toList, "fix: correct y".toList⟩]
    (by decide) rfl (by decide) rfl rfl

/-- C8, counterexample. The only tag `0.0.0` is on HEAD and the tree is clean, yet
`currentTag` is `0.0.0-1111111`, not `0.0.0`, and `nextCommits` and `nextVersion` are
not empty. With the tags `v1.0.0` and `1.0.0`, of the same highest precedence and
enumerated in this order, HEAD is on the tag `1.0.0` and the tree is clean, yet
`currentTag` is `1.0.0-1111111` and `nextCommits` and `nextVersion` are not empty. -/
theorem Info_at_tag_zero :
    (taggedGit [tag000]).head = .ok tag000.hash ∧
    (taggedGit [tag000]).statusIsClean = .ok true ∧
    Info (newRepository (taggedGit [tag000])) =
      .ret (⟨"0.0.0".toList, "0.0.0-1111111".toList, "0.1.0".toList, sampleCommits⟩, none) ∧
    tiedTagsGit.head = .ok tag100.hash ∧
    tiedTagsGit.statusIsClean = .ok true ∧
    tagLess tagV100 tag100 = false ∧ tagLess tag100 tagV100 = false ∧
    Info (newRepository tiedTagsGit) =
      .ret (⟨"1.0.0".toList, "1.0.0-1111111".toList, "1.1.0".toList, sampleCommits.take 1⟩,
        none) :=
  ⟨rfl, rfl, by decide, rfl, rfl, by decide, by decide, by decide⟩

theorem forEachTag_stays (tags : List Reference) (c : Version) (h : Str)
    (hc : canonicalVersion c = true) (hcanon : ∀ q ∈ tags, canonicalTag q = true)
    (hle : ∀ q ∈ tags, ∀ v, NewVersion q.short = some v → versionKey v ≤ versionKey c) :
    forEachTag tags (some c) h = .ret (some c, h) := by
  induction tags with
  | nil => rfl
  | cons q rest ih =>
    obtain ⟨v, hv, hcv⟩ := (canonicalTag_iff q).1 (hcanon q (List.mem_cons_self _ _))
    have hnot : c.LessThan v = false := by
      cases hlt : c.LessThan v with
      | false => rfl
      | true =>
        exact absurd ((lessThan_iff_versionKey c v hc hcv).1 hlt)
          (not_lt.2 (hle q (List.mem_cons_self _ _) v hv))
    rw [forEachTag_cons_some q rest c v h hv, hnot]
    exact ih (fun x hx => hcanon x (List.mem_cons_of_mem _ hx))
      (fun x hx => hle x (List.mem_cons_of_mem _ hx))

theorem forEachTag_first_maximal (p : Reference) (vp : Version) (after : List Reference)
    (hp : NewVersion p.short = some vp) (hcp : canonicalVersion vp = true)
    (hafter : ∀ q ∈ after, canonicalTag q = true)
    (hle : ∀ q ∈ after, ∀ v, NewVersion q.short = some v → versionKey v ≤ versionKey vp)
    (before : List Reference) :
    ∀ (c0 : Version) (h0 : Str), canonicalVersion c0 = true → versionKey c0 < versionKey vp →
      (∀ q ∈ before, canonicalTag q = true) →
      (∀ q ∈ before, ∀ v, NewVersion q.short = some v → versionKey v < versionKey vp) →
      forEachTag (before ++ p :: after) (some c0) h0 = .ret (some vp, p.hash) := by
  induction before with
  | nil =>
    intro c0 h0 hc0 hlt _ _
    have hless : c0.LessThan vp = true := (lessThan_iff_versionKey c0 vp hc0 hcp).2 hlt
    rw [List.nil_append, forEachTag_cons_some p after c0 vp h0 hp, hless]
    exact forEachTag_stays after vp p.hash hcp hafter hle
  | cons q rest ih =>
    intro c0 h0 hc0 hlt hcanon hbelow
    obtain ⟨v, hv, hcv⟩ := (canonicalTag_iff q).1 (hcanon q (List.mem_cons_self _ _))
    have hrest1 : ∀ x ∈ rest, canonicalTag x = true :=
      fun x hx => hcanon x (List.mem_cons_of_mem _ hx)
    have hrest2 : ∀ x ∈ rest, ∀ w, NewVersion x.short = some w →
        versionKey w < versionKey vp := fun x hx => hbelow x (List.mem_cons_of_mem _ hx)
    rw [List.cons_append, forEachTag_cons_some q _ c0 v h0 hv]
    split
    · exact ih v q.hash hcv (hbelow q (List.mem_cons_self _ _) v hv) hrest1 hrest2
    · exact ih c0 h0 hc0 hlt hrest1 hrest2

theorem Info_at_recorded_commit (r : Repository) (lv hd msg : Str) (rest : List RawCommit)
    (walkErr : Option Str) (hget : getLatestVersion r = .ret (lv, hd, none))
    (hh : r.git.head = .ok hd) (hl : r.git.log = .ok (⟨hd, msg⟩ :: rest, walkErr))
    (hs : r.git.statusIsClean = .ok true) :
    Info r = .ret (⟨lv, lv, [], []⟩, none) := by
  obtain ⟨v, hv, hstr⟩ := getLatestVersion_reparses hget
  have hnext := getNextVersion_eq r lv hd v _ hv (commitsSince_at_head r hd msg rest walkErr hh hl)
  have htag := createTag_eq lv (if hd ≠ hd then hd else []) (!true) v hv (by simp)
  have hinfo := Info_eq r lv hd hd _ _ true _ hget hnext hh hs htag
  rw [hinfo]
  have h1 : bumpString v (maxBump []) = [] := rfl
  simp [h1, ← String_eq_labelled, hstr]

/-- C8, amended. The tag names all parse, with numeric pre-release identifiers written
without leading zeros; the tag `p` is the first one enumerated among the tags of highest
precedence, that is, the tags before it are strictly below it and no tag after it is
strictly above it; `p` is strictly above `0.0.0`; HEAD resolves to the hash of `p`, the
walk of the history opens on the commit of HEAD, and the working tree is clean. Then
`getLatestVersion` returns the version of `p` with the hash of `p`, and `Info` returns
without error `currentTag` equal to `latestVersion`, no next commits and an empty next
version. -/
theorem Info_at_latest_tag (r : Repository) (before after : List Reference)
    (p : Reference) (msg : Str) (rest : List RawCommit) (walkErr : Option Str)
    (ht : r.git.tags = .ok (before ++ p :: after))
    (hcanon : ∀ q ∈ before ++ p :: after, canonicalTag q = true)
    (habove : aboveInitial p = true)
    (hbefore : ∀ q ∈ before, tagLess q p = true)
    (hafter : ∀ q ∈ after, tagLess p q = false)
    (hh : r.git.head = .ok p.hash)
    (hl : r.git.log = .ok (⟨p.hash, msg⟩ :: rest, walkErr))
    (hs : r.git.statusIsClean = .ok true) :
    ∃ v : Version, NewVersion p.short = some v ∧
      getLatestVersion r = .ret (v.String, p.hash, none) ∧
      Info r = .ret (⟨v.String, v.String, [], []⟩, none) := by
  obtain ⟨vp, hp, hcp⟩ := (canonicalTag_iff p).1 (hcanon p (by simp))
  have hinit : versionKey ⟨0, 0, 0, [], []⟩ < versionKey vp := by
    unfold aboveInitial at habove
    rw [initialVersion_parses, hp] at habove
    exact (lessThan_iff_versionKey ⟨0, 0, 0, [], []⟩ vp rfl hcp).1 habove
  have hrun : forEachTag (before ++ p :: after) (some ⟨0, 0, 0, [], []⟩) [] =
      .ret (some vp, p.hash) := by
    refine forEachTag_first_maximal p vp after hp hcp (fun q hq => hcanon q (by simp [hq]))
      ?_ before ⟨0, 0, 0, [], []⟩ [] rfl hinit (fun q hq => hcanon q (by simp [hq])) ?_
    · intro q hq v hv
      obtain ⟨w, hw, hcw⟩ := (canonicalTag_iff q).1 (hcanon q (by simp [hq]))
      rw [hv] at hw
      cases hw
      have := hafter q hq
      simp only [tagLess, hp, hv] at this
      exact not_lt.1 (fun hlt => by
        rw [(lessThan_iff_versionKey vp v hcp hcw).2 hlt] at this; cases this)
    · intro q hq v hv
      obtain ⟨w, hw, hcw⟩ := (canonicalTag_iff q).1 (hcanon q (by simp [hq]))
      rw [hv] at hw
      cases hw
      have := hbefore q hq
      simp only [tagLess, hp, hv] at this
      exact (lessThan_iff_versionKey v vp hcw hcp).1 this
  have hget := getLatestVersion_of_forEachTag r _ vp p.hash ht hrun
  exact ⟨vp, hp, hget, Info_at_recorded_commit r vp.String p.hash msg rest walkErr hget hh hl hs⟩

/-- Witness of C8, amended: the tags `0.0.0`, `2.1.0-rc.1`, `2.1.0`, `v1.0.0` with HEAD on
the tag `2.1.0` and a clean tree. -/
theorem Info_at_latest_tag_witness :
    ∃ v : Version, NewVersion tag210.short = some v ∧
      getLatestVersion (newRepository (taggedGit [tag000, tag210rc, tag210, tagV100])) =
        .ret (v.String, tag210.hash, none) ∧
      Info (newRepository (taggedGit [tag000, tag210rc, tag210, tagV100])) =
        .ret (⟨v.String, v.String, [], []⟩, none) :=
  Info_at_latest_tag (newRepository (taggedGit [tag000, tag210rc, tag210, tagV100]))
    [tag000, tag210rc] [tagV100] tag210 "feat: add x".toList
    [⟨"2222222222222222222222222222222222222222".toList, "fix: correct y".toList⟩] none
    rfl (by decide) (by decide) (by decide) (by decide) rfl rfl rfl

theorem takeWhile_all {p : Char → Bool} (l : Str) : (l.takeWhile p).all p = true := by
  induction l with
  | nil => rfl
  | cons a l ih =>
    by_cases h : p a = true
    · simp [List.takeWhile, h, ih]
    · simp [List.takeWhile, h]

theorem matchTypeScope_scope {message typ scope text : Str}
    (h : matchTypeScope message = some (typ, scope, text)) :
    scope.all isWordChar = true ∧ scope ≠ "*".toList := by
  unfold matchTypeScope at h
  split at h
  · split at h
    · simp only at h
      split_ifs at h
      simp only [Option.some.injEq, Prod.mk.injEq] at h
      obtain ⟨-, hs, -⟩ := h
      have hall : scope.all isWordChar = true := by
        rw [← hs]; exact takeWhile_all _
      refine ⟨hall, ?_⟩
      rintro rfl
      revert hall
      decide
    · cases h
  · cases h

/-- C12 (the code departs from the claim). On the message `feat(*): add x` neither header
pattern matches, because `\w+` does not match the scope `*`: the commit has an empty
type, an empty scope, the whole input as message and magnitude None, where the claim
gives type `feat`, message `add x`. -/
theorem tokenizeCommitMessage_wildcard_scope (git : Git) :
    matchTypeScope "feat(*): add x".toList = none ∧
    matchType "feat(*): add x".toList = none ∧
    tokenizeCommitMessage "feat(*): add x".toList = ([], [], "feat(*): add x".toList) ∧
    (parseCommitMessage (newRepository git) "feat(*): add x".toList).1 =
      { Version := VersionNone, Hash := [], Typ := [], Scope := [],
        Message := "feat(*): add x".toList } :=
  ⟨by decide, by decide, by decide, rfl⟩

/-- C13, counterexample. The message `BREAKING CHANGE: removed API` matches neither
header pattern, and its magnitude is Major, not None. -/
theorem parseCommitMessage_malformed_breaking :
    matchTypeScope "BREAKING CHANGE: removed API".toList = none ∧
    matchType "BREAKING CHANGE: removed API".toList = none ∧
    (parseCommitMessage (newRepository sampleGit) "BREAKING CHANGE: removed API".toList).1 =
      { Version := VersionMajor, Hash := [], Typ := [], Scope := [],
        Message := "BREAKING CHANGE: removed API".toList } ∧
    (parseCommitMessage (newRepository sampleGit)
      "BREAKING CHANGE: removed API".toList).1.Version ≠ VersionNone := by
  decide

/-- C13, amended. `parseCommitMessage` never fails, and on an input that matches neither
header pattern it returns an empty type, an empty scope, the whole input as message,
and the magnitude None unless the input contains `BREAKING CHANGE:`, in which case the
magnitude is Major. -/
theorem parseCommitMessage_malformed (git : Git) (text : Str) :
    (parseCommitMessage (newRepository git) text).2 = none ∧
    (matchTypeScope text = none → matchType text = none →
      (parseCommitMessage (newRepository git) text).1 =
        { Version := if stringsContains text breakingChangeText then VersionMajor
            else VersionNone,
          Hash := [], Typ := [], Scope := [], Message := text }) := by
  refine ⟨rfl, ?_⟩
  intro h1 h2
  have ht : tokenizeCommitMessage text = ([], [], text) := by
    unfold tokenizeCommitMessage
    rw [h1, h2]
  unfold parseCommitMessage
  rw [ht]
  simp only [classify, newRepository, inStringSlice, Commit.zero]
  by_cases hb : stringsContains text breakingChangeText = true
  · simp [hb]
  · simp [hb]

/-- Witness of C13, amended: the input `update readme` matches no header pattern and is
classified None. -/
theorem parseCommitMessage_malformed_witness :
    (parseCommitMessage (newRepository sampleGit) "update readme".toList).1 =
      { Version := if stringsContains "update readme".toList breakingChangeText then
            VersionMajor else VersionNone,
        Hash := [], Typ := [], Scope := [], Message := "update readme".toList } :=
  (parseCommitMessage_malformed sampleGit "update readme".toList).2 (by decide) (by decide)

/-- C17 (the code departs from the claim). The repository has commits, its tag list is
enumerated, HEAD resolves and the working-tree status is available, and `Info` panics:
the only tag, `nightly`, is no version. Without tags `Info` returns without error. -/
theorem Info_panics_on_unparsable_tag :
    (taggedGit [tagNightly]).head = .ok "1111111111111111111111111111111111111111".toList ∧
    (taggedGit [tagNightly]).statusIsClean = .ok true ∧
    Info (newRepository (taggedGit [tagNightly])) =
      .panic "invalid memory address or nil pointer dereference" ∧
    Info (newRepository (taggedGit [])) =
      .ret (⟨"0.0.0".toList, "0.0.0-1111111".toList, "0.1.0".toList, sampleCommits⟩, none) :=
  ⟨rfl, rfl, by decide, by decide⟩

theorem isWord_iff (s : Str) : isWord s = true ↔ s ≠ [] ∧ s.all isWordChar = true := by
  cases s <;> simp [isWord]

theorem matchTypeScope_headerWithScope (typ scope rest : Str) (ht : isWord typ = true)
    (hs : isWord scope = true) :
    matchTypeScope (headerWithScope typ scope rest) =
      if (firstLine rest).isEmpty then none else some (typ, scope, firstLine rest) := by
  obtain ⟨htne, htall⟩ := (isWord_iff typ).1 ht
  obtain ⟨hsne, hsall⟩ := (isWord_iff scope).1 hs
  have h1 : ∀ X : Str, ('(' :: X = [] ∨ ∃ c t, '(' :: X = c :: t ∧ isWordChar c = false) :=
    fun X => Or.inr ⟨'(', X, rfl, by decide⟩
  have h2 : ∀ X : Str, (')' :: X = [] ∨ ∃ c t, ')' :: X = c :: t ∧ isWordChar c = false) :=
    fun X => Or.inr ⟨')', X, rfl, by decide⟩
  have hte : typ.isEmpty = false := by cases typ <;> simp_all
  have hse : scope.isEmpty = false := by cases scope <;> simp_all
  unfold matchTypeScope headerWithScope
  simp only [takeWhile_append_stop typ _ htall (h1 _),
    dropWhile_append_stop typ _ htall (h1 _), takeWhile_append_stop scope _ hsall (h2 _),
    dropWhile_append_stop scope _ hsall (h2 _), hte, hse, Bool.false_or, firstLine]

theorem matchType_headerWithScope (typ scope rest : Str) (ht : isWord typ = true) :
    matchType (headerWithScope typ scope rest) = none := by
  obtain ⟨-, htall⟩ := (isWord_iff typ).1 ht
  have h1 : ∀ X : Str, ('(' :: X = [] ∨ ∃ c t, '(' :: X = c :: t ∧ isWordChar c = false) :=
    fun X => Or.inr ⟨'(', X, rfl, by decide⟩
  unfold matchType headerWithScope
  simp only [dropWhile_append_stop typ _ htall (h1 _)]
  rfl

theorem matchTypeScope_headerNoScope (typ rest : Str) (ht : isWord typ = true) :
    matchTypeScope (headerNoScope typ rest) = none := by
  obtain ⟨-, htall⟩ := (isWord_iff typ).1 ht
  have h1 : ∀ X : Str, (':' :: X = [] ∨ ∃ c t, ':' :: X = c :: t ∧ isWordChar c = false) :=
    fun X => Or.inr ⟨':', X, rfl, by decide⟩
  unfold matchTypeScope headerNoScope
  simp only [dropWhile_append_stop typ _ htall (h1 _)]
  rfl

theorem matchType_headerNoScope (typ rest : Str) (ht : isWord typ = true) :
    matchType (headerNoScope typ rest) =
      if (firstLine rest).isEmpty then none else some (typ, firstLine rest) := by
  obtain ⟨htne, htall⟩ := (isWord_iff typ).1 ht
  have h1 : ∀ X : Str, (':' :: X = [] ∨ ∃ c t, ':' :: X = c :: t ∧ isWordChar c = false) :=
    fun X => Or.inr ⟨':', X, rfl, by decide⟩
  have hte : typ.isEmpty = false := by cases typ <;> simp_all
  unfold matchType headerNoScope
  simp only [takeWhile_append_stop typ _ htall (h1 _),
    dropWhile_append_stop typ _ htall (h1 _), hte, Bool.false_or, firstLine]

theorem isWord_ne_star {scope : Str} (hs : isWord scope = true) : scope ≠ ['*'] := by
  rintro rfl
  revert hs
  decide

theorem tokenize_headerWithScope (typ scope rest : Str) (ht : isWord typ = true)
    (hs : isWord scope = true) :
    tokenizeCommitMessage (headerWithScope typ scope rest) =
      if (firstLine rest).isEmpty then ([], [], headerWithScope typ scope rest)
      else (typ, scope, firstLine rest) := by
  unfold tokenizeCommitMessage
  rw [matchTypeScope_headerWithScope typ scope rest ht hs,
    matchType_headerWithScope typ scope rest ht]
  by_cases h : (firstLine rest).isEmpty = true
  · simp [h]
  · simp [h, isWord_ne_star hs]

theorem tokenize_headerNoScope (typ rest : Str) (ht : isWord typ = true) :
    tokenizeCommitMessage (headerNoScope typ rest) =
      if (firstLine rest).isEmpty then ([], [], headerNoScope typ rest)
      else (typ, [], firstLine rest) := by
  unfold tokenizeCommitMessage
  rw [matchTypeScope_headerNoScope typ rest ht, matchType_headerNoScope typ rest ht]
  by_cases h : (firstLine rest).isEmpty = true
  · simp [h]
  · simp [h]


theorem firstLine_of_single_line {rest : Str} (h : rest.all isDotChar = true) :
    firstLine rest = rest := by
  have := takeWhile_append_stop rest [] h (Or.inl rfl)
  simpa [firstLine] using this

/-- C11, counterexample. The message `feat(api): add x`, newline, newline, `body` is
`type(scope): rest` for the type `feat`, the scope `api` and a rest of three lines, and
the message returned is `add x`, the first line of the rest, not the rest. -/
theorem tokenizeCommitMessage_multiline_rest :
    "feat(api): add x\n\nbody".toList =
      headerWithScope "feat".toList "api".toList "add x\n\nbody".toList ∧
    tokenizeCommitMessage "feat(api): add x\n\nbody".toList =
      ("feat".toList, "api".toList, "add x".toList) ∧
    tokenizeCommitMessage "feat(api): add x\n\nbody".toList ≠
      ("feat".toList, "api".toList, "add x\n\nbody".toList) := by
  decide

/-- C11, amended. For a type and a scope that are non-empty runs of word characters and
a rest that does not start with a newline, `tokenizeCommitMessage` maps `type(scope):
rest` to (type, scope, first line of rest) and `type: rest` to (type, empty scope, first
line of rest): the message returned is the text after the colon-space separator up to
the first newline, which is all of the rest when the rest is a single line. When the rest
is empty or starts with a newline, neither pattern matches and the whole input is
returned as message, with an empty type and scope. -/
theorem tokenizeCommitMessage_header (typ scope rest : Str) (ht : isWord typ = true)
    (hs : isWord scope = true) :
    (firstLine rest ≠ [] →
      tokenizeCommitMessage (headerWithScope typ scope rest) = (typ, scope, firstLine rest) ∧
      tokenizeCommitMessage (headerNoScope typ rest) = (typ, [], firstLine rest)) ∧
    (firstLine rest = [] →
      tokenizeCommitMessage (headerWithScope typ scope rest) =
        ([], [], headerWithScope typ scope rest) ∧
      tokenizeCommitMessage (headerNoScope typ rest) = ([], [], headerNoScope typ rest)) ∧
    (rest.all isDotChar = true → firstLine rest = rest) := by
  refine ⟨?_, ?_, firstLine_of_single_line⟩
  · intro h
    have he : (firstLine rest).isEmpty = false := by
      cases hf : firstLine rest with
      | nil => exact absurd hf h
      | cons _ _ => rfl
    rw [tokenize_headerWithScope typ scope rest ht hs, tokenize_headerNoScope typ rest ht]
    simp [he]
  · intro h
    rw [tokenize_headerWithScope typ scope rest ht hs, tokenize_headerNoScope typ rest ht]
    simp [h]

/-- Witness of C11, amended: the type `feat`, the scope `api` and the rest `add x`,
newline, newline, `body`. -/
theorem tokenizeCommitMessage_header_witness :
    tokenizeCommitMessage "feat(api): add x\n\nbody".toList =
      ("feat".toList, "api".toList, "add x".toList) ∧
    tokenizeCommitMessage "feat: add x\n\nbody".toList = ("feat".toList, [], "add x".toList) :=
  (tokenizeCommitMessage_header "feat".toList "api".toList "add x\n\nbody".toList
    (by decide) (by decide)).1 (by decide)

theorem dropWhile_stop {p : Char → Bool} (l : Str) :
    l.dropWhile p = [] ∨ ∃ c t, l.dropWhile p = c :: t ∧ p c = false := by
  induction l with
  | nil => exact Or.inl rfl
  | cons a l ih =>
    by_cases h : p a = true
    · simpa [List.dropWhile, h] using ih
    · right
      exact ⟨a, l, by simp [List.dropWhile, h], by simpa using h⟩

theorem firstLine_append_tail (message text : Str) (pre : Str)
    (h : firstLine message = pre ++ text) :
    message = pre ++ (text ++ message.dropWhile isDotChar) ∧
    firstLine (text ++ message.dropWhile isDotChar) = text := by
  have hsplit : message = firstLine message ++ message.dropWhile isDotChar :=
    (List.takeWhile_append_dropWhile isDotChar message).symm
  have hall : (pre ++ text).all isDotChar = true := by
    rw [← h]; exact takeWhile_all _
  rw [List.all_append, Bool.and_eq_true] at hall
  refine ⟨?_, ?_⟩
  · conv_lhs => rw [hsplit, h, List.append_assoc]
  · exact takeWhile_append_stop text _ hall.2 (dropWhile_stop message)

theorem tokenize_of_firstLine_withScope (message typ scope text : Str)
    (ht : isWord typ = true) (hs : isWord scope = true) (hx : text ≠ [])
    (h : firstLine message = headerWithScope typ scope text) :
    tokenizeCommitMessage message = (typ, scope, text) := by
  have hpre : headerWithScope typ scope text = (typ ++ '(' :: (scope ++ [')', ':', ' '])) ++ text := by
    simp [headerWithScope]
  obtain ⟨hm, hfl⟩ := firstLine_append_tail message text _ (h.trans hpre)
  have hm2 : message = headerWithScope typ scope (text ++ message.dropWhile isDotChar) := by
    conv_lhs => rw [hm]
    simp [headerWithScope]
  rw [hm2, tokenize_headerWithScope typ scope _ ht hs, hfl]
  cases text with
  | nil => exact absurd rfl hx
  | cons _ _ => rfl

theorem tokenize_of_firstLine_noScope (message typ text : Str)
    (ht : isWord typ = true) (hx : text ≠ [])
    (h : firstLine message = headerNoScope typ text) :
    tokenizeCommitMessage message = (typ, [], text) := by
  have hpre : headerNoScope typ text = (typ ++ [':', ' ']) ++ text := by
    simp [headerNoScope]
  obtain ⟨hm, hfl⟩ := firstLine_append_tail message text _ (h.trans hpre)
  have hm2 : message = headerNoScope typ (text ++ message.dropWhile isDotChar) := by
    conv_lhs => rw [hm]
    simp [headerNoScope]
  rw [hm2, tokenize_headerNoScope typ _ ht, hfl]
  cases text with
  | nil => exact absurd rfl hx
  | cons _ _ => rfl

/-- C18. Two commit messages with the same first line, where that line is `type(scope):
text` or `type: text` with a type and a scope that are non-empty runs of word characters
and a non-empty text, get from `parseCommitMessage` the same type, scope, message and
magnitude. -/
theorem parseCommitMessage_first_line (r : Repository) (m1 m2 : Str)
    (hline : firstLine m1 = firstLine m2)
    (hheader :
      (∃ typ scope text, isWord typ = true ∧ isWord scope = true ∧ text ≠ [] ∧
        firstLine m1 = headerWithScope typ scope text) ∨
      (∃ typ text, isWord typ = true ∧ text ≠ [] ∧ firstLine m1 = headerNoScope typ text)) :
    parseCommitMessage r m1 = parseCommitMessage r m2 := by
  have htok : tokenizeCommitMessage m1 = tokenizeCommitMessage m2 := by
    rcases hheader with ⟨typ, scope, text, ht, hs, hx, h⟩ | ⟨typ, text, ht, hx, h⟩
    · rw [tokenize_of_firstLine_withScope m1 typ scope text ht hs hx h,
        tokenize_of_firstLine_withScope m2 typ scope text ht hs hx (hline ▸ h)]
    · rw [tokenize_of_firstLine_noScope m1 typ text ht hx h,
        tokenize_of_firstLine_noScope m2 typ text ht hx (hline ▸ h)]
  unfold parseCommitMessage
  rw [htok]

/-- Witness of C18: the message `fix: minor change` with and without a body that holds
`BREAKING CHANGE:`. -/
theorem parseCommitMessage_first_line_witness :
    parseCommitMessage (newRepository sampleGit)
        "fix: minor change\n\nBREAKING CHANGE: removed API".toList =
      parseCommitMessage (newRepository sampleGit) "fix: minor change".toList :=
  parseCommitMessage_first_line (newRepository sampleGit)
    "fix: minor change\n\nBREAKING CHANGE: removed API".toList "fix: minor change".toList
    (by decide)
    (Or.inr ⟨"fix".toList, "minor change".toList, by decide, by decide, by decide⟩)

theorem forEachCommit_eq (r : Repository) (hash : Str) (walk : List RawCommit) :
    forEachCommit r hash walk none =
      ((walk.takeWhile (fun c => c.hash != hash)).map (classifiedCommit r), none) := by
  induction walk with
  | nil => rfl
  | cons c rest ih =>
    rw [forEachCommit]
    by_cases hc : c.hash = hash
    · simp [hc]
    · have hp : parseCommitMessage r c.message = ((parseCommitMessage r c.message).1, none) := rfl
      rw [if_neg hc, hp]
      simp only [ih]
      have hne : (c.hash != hash) = true := by simpa using hc
      simp only [List.takeWhile, hne, List.map_cons]
      rfl

theorem takeWhile_of_forall {α : Type} {p : α → Bool} (l : List α) (h : ∀ a ∈ l, p a = true) :
    l.takeWhile p = l := by
  induction l with
  | nil => rfl
  | cons a l ih =>
    simp [List.takeWhile, h a (List.mem_cons_self _ _),
      ih (fun b hb => h b (List.mem_cons_of_mem _ hb))]

theorem commitsSince_eq (r : Repository) (hash head : Str) (walk : List RawCommit)
    (hh : r.git.head = .ok head) (hl : r.git.log = .ok (walk, none)) :
    commitsSince r hash =
      ((walk.takeWhile (fun c => c.hash != hash)).map (classifiedCommit r), none) := by
  unfold commitsSince
  rw [hh, hl]
  exact forEachCommit_eq r hash walk

theorem commitsSince_all (r : Repository) (hash head : Str) (walk : List RawCommit)
    (hh : r.git.head = .ok head) (hl : r.git.log = .ok (walk, none))
    (hall : ∀ c ∈ walk, c.hash ≠ hash) :
    commitsSince r hash = (walk.map (classifiedCommit r), none) := by
  rw [commitsSince_eq r hash head walk hh hl,
    takeWhile_of_forall walk (fun c hc => by simpa using hall c hc)]

/-- C14. When HEAD resolves and the history can be walked, `commitsSince` returns, in the
order of the walk and each with its own hash, the classification of the commits that
come before the first commit whose hash is `hash`; when no commit of the walk has that
hash, which is the case of the empty hash, it returns the classification of the entire
history. -/
theorem commitsSince_classifies_until (r : Repository) (hash head : Str)
    (walk : List RawCommit) (hh : r.git.head = .ok head)
    (hl : r.git.log = .ok (walk, none)) :
    commitsSince r hash =
      ((walk.takeWhile (fun c => c.hash != hash)).map (classifiedCommit r), none) ∧
    (∀ (before after : List RawCommit) (stop : RawCommit),
      walk = before ++ stop :: after → stop.hash = hash → (∀ c ∈ before, c.hash ≠ hash) →
      commitsSince r hash = (before.map (classifiedCommit r), none)) ∧
    ((∀ c ∈ walk, c.hash ≠ hash) →
      commitsSince r hash = (walk.map (classifiedCommit r), none)) ∧
    (∀ c : RawCommit, (classifiedCommit r c).Hash = c.hash ∧
      (classifiedCommit r c).Typ = (parseCommitMessage r c.message).1.Typ ∧
      (classifiedCommit r c).Scope = (parseCommitMessage r c.message).1.Scope ∧
      (classifiedCommit r c).Message = (parseCommitMessage r c.message).1.Message ∧
      (classifiedCommit r c).Version = (parseCommitMessage r c.message).1.Version) := by
  have hmain := commitsSince_eq r hash head walk hh hl
  refine ⟨hmain, ?_, commitsSince_all r hash head walk hh hl,
    fun c => ⟨rfl, rfl, rfl, rfl, rfl⟩⟩
  · intro before after stop hw hs hb
    rw [hmain, hw]
    have hstop : ((stop :: after).takeWhile (fun c => c.hash != hash)) = [] := by
      simp [List.takeWhile, hs]
    rw [List.takeWhile_append_of_pos (fun c hc => by simpa using hb c hc), hstop,
      List.append_nil]

/-- Witness of C14: the history of `sampleGit` walked until its older commit. -/
theorem commitsSince_classifies_until_witness :
    commitsSince (newRepository sampleGit) "2222222222222222222222222222222222222222".toList =
      ([⟨VersionMinor, "1111111111111111111111111111111111111111".toList, "feat".toList, [],
        "add x".toList⟩], none) :=
  (commitsSince_classifies_until (newRepository sampleGit)
    "2222222222222222222222222222222222222222".toList
    "1111111111111111111111111111111111111111".toList
    [⟨"1111111111111111111111111111111111111111".toList, "feat: add x".toList⟩,
      ⟨"2222222222222222222222222222222222222222".toList, "fix: correct y".toList⟩]
    rfl rfl).1


theorem getLatestVersion_error {r : Repository} {lv lc e : Str}
    (h : getLatestVersion r = .ret (lv, lc, some e)) : r.git.tags = .error e := by
  unfold getLatestVersion at h
  cases ht : r.git.tags with
  | error err =>
    rw [ht] at h
    simp only [Go.ret.injEq, Prod.mk.injEq, Option.some.injEq] at h
    rw [h.2.2]
  | ok tags =>
    rw [ht] at h
    simp only at h
    split at h <;> simp at h

/-- C15, counterexample. HEAD cannot be resolved: `Info` returns an error together with
a `ReleaseInfo` whose `latestVersion` is `0.0.0`. The working-tree status is not
available: `Info` returns an error together with the latest version, the next version
and the next commits. -/
theorem Info_partial_result_on_error :
    Info (newRepository noHeadGit) =
      .ret (⟨"0.0.0".toList, [], [], []⟩,
        some "reference not found - is repository empty?".toList) ∧
    Info (newRepository bareGit) =
      .ret (⟨"0.0.0".toList, [], "0.1.0".toList, sampleCommits⟩,
        some "worktree not available in a bare repository".toList) := by
  decide

/-- C15, amended. Whenever `Info` returns an error, `currentTag` is empty, and the rest
is what was computed before the failure: nothing when the tags cannot be enumerated;
the latest version alone when `getNextVersion` fails, that is when HEAD cannot be
resolved or the history cannot be walked; the latest version, the next version and the
next commits when the working-tree status is not available. -/
theorem Info_error_result (r : Repository) (info : ReleaseInfo) (err : Str)
    (h : Info r = .ret (info, some err)) :
    info.CurrentTag = [] ∧
    ((r.git.tags = .error err ∧ info = ReleaseInfo.zero) ∨
      ∃ lv lc, getLatestVersion r = .ret (lv, lc, none) ∧ lv ≠ [] ∧
        (((getNextVersion r lv lc).2.2 = some err ∧ info = ⟨lv, [], [], []⟩) ∨
          ∃ nv commits, getNextVersion r lv lc = (nv, commits, none) ∧
            (getTreeStatus r).2.2 = some err ∧ info = ⟨lv, [], nv, commits⟩)) := by
  unfold Info at h
  cases hg : getLatestVersion r with
  | panic msg => rw [hg] at h; simp at h
  | ret res =>
    obtain ⟨lv, lc, e⟩ := res
    rw [hg] at h
    cases e with
    | some e =>
      simp only [Go.ret.injEq, Prod.mk.injEq, Option.some.injEq] at h
      obtain ⟨rfl, rfl⟩ := h
      exact ⟨rfl, Or.inl ⟨getLatestVersion_error hg, rfl⟩⟩
    | none =>
      obtain ⟨c, -, hc⟩ := getLatestVersion_ret hg
      have hlv : lv ≠ [] := by rw [hc]; exact String_ne_nil c
      simp only at h
      cases hn : getNextVersion r lv lc with
      | mk nv rest =>
        obtain ⟨commits, e2⟩ := rest
        rw [hn] at h
        cases e2 with
        | some e2 =>
          simp only [Go.ret.injEq, Prod.mk.injEq, Option.some.injEq] at h
          obtain ⟨rfl, rfl⟩ := h
          exact ⟨rfl, Or.inr ⟨lv, lc, rfl, hlv, Or.inl ⟨by rw [hn], rfl⟩⟩⟩
        | none =>
          simp only at h
          cases hs : getTreeStatus r with
          | mk hd rest2 =>
            obtain ⟨dirty, e3⟩ := rest2
            rw [hs] at h
            cases e3 with
            | some e3 =>
              simp only [Go.ret.injEq, Prod.mk.injEq, Option.some.injEq] at h
              obtain ⟨rfl, rfl⟩ := h
              exact ⟨rfl, Or.inr ⟨lv, lc, rfl, hlv, Or.inr ⟨nv, commits, hn, rfl, rfl⟩⟩⟩
            | none =>
              simp only at h
              split at h <;> simp at h

/-- Witness of C15, amended, on the repository in which HEAD cannot be resolved. -/
theorem Info_error_result_witness :
    ([] : Str) = [] ∧
    (((newRepository noHeadGit).git.tags =
        .error "reference not found - is repository empty?".toList ∧
        (⟨"0.0.0".toList, [], [], []⟩ : ReleaseInfo) = ReleaseInfo.zero) ∨
      ∃ lv lc, getLatestVersion (newRepository noHeadGit) = .ret (lv, lc, none) ∧ lv ≠ [] ∧
        (((getNextVersion (newRepository noHeadGit) lv lc).2.2 =
            some "reference not found - is repository empty?".toList ∧
            (⟨"0.0.0".toList, [], [], []⟩ : ReleaseInfo) = ⟨lv, [], [], []⟩) ∨
          ∃ nv commits, getNextVersion (newRepository noHeadGit) lv lc = (nv, commits, none) ∧
            (getTreeStatus (newRepository noHeadGit)).2.2 =
              some "reference not found - is repository empty?".toList ∧
            (⟨"0.0.0".toList, [], [], []⟩ : ReleaseInfo) = ⟨lv, [], nv, commits⟩)) :=
  Info_error_result (newRepository noHeadGit) ⟨"0.0.0".toList, [], [], []⟩
    "reference not found - is repository empty?".toList (by decide)

/-- C16 (the code departs from the claim). The latest version `1.0.0` comes from
`getLatestVersion` and the HEAD hash is 40 hexadecimal digits that start with `0123456`:
`createTag` returns `1.0.0-0123456`, and `1.0.0-0123456+dirty` for a dirty tree, which
are no semantic versions of the standard grammar, because the numeric pre-release
identifier `0123456` has a leading zero. With the hash that starts with `1111111` the
tag is a semantic version. -/
theorem createTag_leading_zero_hash :
    getLatestVersion (newRepository (taggedGit [tag100])) =
      .ret ("1.0.0".toList, tag100.hash, none) ∧
    isHash leadingZeroHash = true ∧
    createTag "1.0.0".toList leadingZeroHash false = .ret "1.0.0-0123456".toList ∧
    standardSemver "1.0.0-0123456".toList = false ∧
    createTag "1.0.0".toList leadingZeroHash true = .ret "1.0.0-0123456+dirty".toList ∧
    standardSemver "1.0.0-0123456+dirty".toList = false ∧
    createTag "1.0.0".toList "2222222222222222222222222222222222222222".toList true =
      .ret "1.0.0-2222222+dirty".toList ∧
    standardSemver "1.0.0-2222222+dirty".toList = true := by
  decide




theorem forEachTag_initial (tags : List Reference)
    (hlow : ∀ p ∈ tags, (NewVersion p.short).isSome = true ∧ aboveInitial p = false) :
    forEachTag tags (some ⟨0, 0, 0, [], []⟩) [] = .ret (some ⟨0, 0, 0, [], []⟩, []) := by
  induction tags with
  | nil => rfl
  | cons p rest ih =>
    obtain ⟨hsome, habove⟩ := hlow p (List.mem_cons_self _ _)
    obtain ⟨v, hv⟩ := Option.isSome_iff_exists.1 hsome
    have hlt : Version.LessThan ⟨0, 0, 0, [], []⟩ v = false := by
      unfold aboveInitial at habove
      rw [initialVersion_parses, hv] at habove
      exact habove
    rw [forEachTag_cons_some p rest _ v [] hv, hlt]
    exact ih (fun q hq => hlow q (List.mem_cons_of_mem _ hq))

/-- C19. When every tag name parses and no tag is strictly above `0.0.0`,
`getLatestVersion` returns the version `0.0.0` with an empty commit hash; `Info` then
reports the whole history as next commits and appends the first 7 characters of the
HEAD hash to the current tag, also when HEAD is the commit of a tag `0.0.0`. -/
theorem getLatestVersion_initial (r : Repository) (tags : List Reference)
    (ht : r.git.tags = .ok tags)
    (hlow : ∀ p ∈ tags, (NewVersion p.short).isSome = true ∧ aboveInitial p = false) :
    getLatestVersion r = .ret ("0.0.0".toList, [], none) ∧
    ∀ (hd : Str) (walk : List RawCommit) (clean : Bool),
      r.git.head = .ok hd → isHash hd = true → r.git.log = .ok (walk, none) →
      (∀ c ∈ walk, c.hash ≠ []) → r.git.statusIsClean = .ok clean →
      Info r = .ret (⟨"0.0.0".toList,
        "0.0.0".toList ++ '-' :: hd.take 7 ++ (if clean then [] else "+dirty".toList),
        bumpString ⟨0, 0, 0, [], []⟩ (maxBump (walk.map (classifiedCommit r))),
        walk.map (classifiedCommit r)⟩, none) := by
  have hget : getLatestVersion r = .ret ("0.0.0".toList, [], none) :=
    getLatestVersion_of_forEachTag r tags ⟨0, 0, 0, [], []⟩ [] ht (forEachTag_initial tags hlow)
  refine ⟨hget, ?_⟩
  intro hd walk clean hh hhash hl hne hs
  obtain ⟨hdne, -, htake, -⟩ := isHash_short hhash
  have hv : NewVersion "0.0.0".toList = some ⟨0, 0, 0, [], []⟩ := initialVersion_parses
  have hnext := getNextVersion_eq r "0.0.0".toList [] ⟨0, 0, 0, [], []⟩ _ hv
    (commitsSince_all r [] hd walk hh hl hne)
  have hcommit : (if ([] : Str) ≠ hd then hd else []) = hd := by
    simp [Ne.symm hdne]
  have htag := createTag_eq "0.0.0".toList hd (!clean) ⟨0, 0, 0, [], []⟩ hv (Or.inr hhash)
  rw [← hcommit] at htag
  have hinfo := Info_eq r "0.0.0".toList [] hd _ _ clean _ hget hnext hh hs
    (by rw [hcommit] at htag ⊢; exact htag)
  rw [hinfo]
  have htriple : tripleString 0 0 0 = "0.0.0".toList := by decide
  cases clean <;> simp [labelled, hdne, htake, htriple, treeIsDirtyFlag]

/-- Witness of C19: the tags `0.0.0`, `v0.0.0` and `0.0.0-rc1`, with HEAD on the commit
of the tag `0.0.0`. -/
theorem getLatestVersion_initial_witness :
    getLatestVersion (newRepository (taggedGit [tag000, tagV000, tag000rc1])) =
      .ret ("0.0.0".toList, [], none) ∧
    Info (newRepository (taggedGit [tag000, tagV000, tag000rc1])) =
      .ret (⟨"0.0.0".toList, "0.0.0-1111111".toList, "0.1.0".toList, sampleCommits⟩, none) :=
  ⟨(getLatestVersion_initial (newRepository (taggedGit [tag000, tagV000, tag000rc1]))
      [tag000, tagV000, tag000rc1] rfl (by decide)).1,
    (getLatestVersion_initial (newRepository (taggedGit [tag000, tagV000, tag000rc1]))
      [tag000, tagV000, tag000rc1] rfl (by decide)).2 tag000.hash
      [⟨"1111111111111111111111111111111111111111".toList, "feat: add x".toList⟩,
        ⟨"2222222222222222222222222222222222222222".toList, "fix: correct y".toList⟩]
      true rfl (by decide) rfl (by decide) rfl⟩

end Semantic
